import Mathlib

/-!
Verification development for the terminal UI engine (`src/display.py`,
`src/chat.py`, `base.py`, `util.py`).  Text is modelled as `List Char`
(Python strings are sequences of code points), Python `int` as `Int`,
and fallible operations (paths that raise exceptions in the source)
return `Option`/`Except`.
-/

set_option linter.unusedVariables false
set_option maxRecDepth 10000

namespace TermCancer

/-- The ESC character, `'\x1b'`. -/
def ESC : Char := '\x1b'

/-- `CLEAR_FORMATTING = "\x1b[m"` (display.py:56). -/
def CLEAR_FORMATTING : List Char := [ESC, '[', 'm']

/-- Modelled from the spec: the repository imports `wcwidth` from
`src/wcwidth.py`, which is not present under `src/`.  Per §2
"ColumnWidth (leaf): classifies a code point's display width (0, 1, or 2
columns)".  Following the standard `wcwidth` contract used by the code
(`max(0, wcwidth(i))`, `ord(j) < 32` guards): control characters get -1,
combining marks 0, East-Asian wide ranges 2, everything else 1. -/
def wcwidth (c : Char) : Int :=
  if c.toNat < 32 ∨ c.toNat = 127 then -1
  else if 0x300 ≤ c.toNat ∧ c.toNat ≤ 0x36F then 0
  else if (0x1100 ≤ c.toNat ∧ c.toNat ≤ 0x115F)
       ∨ (0x2E80 ≤ c.toNat ∧ c.toNat ≤ 0x303E)
       ∨ (0x3041 ≤ c.toNat ∧ c.toNat ≤ 0x33FF)
       ∨ (0x3400 ≤ c.toNat ∧ c.toNat ≤ 0x4DBF)
       ∨ (0x4E00 ≤ c.toNat ∧ c.toNat ≤ 0x9FFF)
       ∨ (0xAC00 ≤ c.toNat ∧ c.toNat ≤ 0xD7A3)
       ∨ (0xF900 ≤ c.toNat ∧ c.toNat ≤ 0xFAFF)
       ∨ (0xFF00 ≤ c.toNat ∧ c.toNat ≤ 0xFF60)
       ∨ (0xFFE0 ≤ c.toNat ∧ c.toNat ≤ 0xFFE6) then 2
  else 1

/-- Python `str.isalpha` as used to terminate escape sequences
(display.py:68, 86).  Escape terminators in this code base are ASCII
letters, for which `Char.isAlpha` agrees with Python. -/
def pyIsAlpha (c : Char) : Bool := c.isAlpha

/-- FSM state threading of `collen` (display.py:59-72): `true` means the
scanner is currently inside an escape sequence. -/
def collenAux : Bool → List Char → Int
  | _, [] => 0
  | esc, c :: rest =>
    let temp := (c == ESC) || esc
    if !temp then max 0 (wcwidth c) + collenAux false rest
    else if pyIsAlpha c then collenAux false rest
    else collenAux temp rest

/-- `collen` (display.py:59-72): column width of a string, skipping
ANSI escape sequences. -/
def collen (s : List Char) : Int := collenAux false s

/-- Final FSM state after scanning `s` starting from state `esc`
(helper for reasoning about `collen`/`stripEscapes` over
concatenations). -/
def escFinal : Bool → List Char → Bool
  | esc, [] => esc
  | esc, c :: rest =>
    let temp := (c == ESC) || esc
    if !temp then escFinal false rest
    else if pyIsAlpha c then escFinal false rest
    else escFinal temp rest

/-- Modelled from the spec: §8.1 speaks of wrapped lines "with reset
sequences stripped".  Removes the escape sequences using exactly the
FSM of `collen`, keeping the characters `collen` counts. -/
def stripEscAux : Bool → List Char → List Char
  | _, [] => []
  | esc, c :: rest =>
    let temp := (c == ESC) || esc
    if !temp then c :: stripEscAux false rest
    else if pyIsAlpha c then stripEscAux false rest
    else stripEscAux temp rest

def stripEscapes (s : List Char) : List Char := stripEscAux false s

/-- `columnslice` (display.py:74-90): number of characters of `s`
fitting in `width` columns (with the quirk that the empty string yields
1, mirroring `return lentr + 1` after a loop that never ran). -/
def columnsliceAux (width : Int) : List Char → Bool → Int → Nat → Nat
  | [], _, _, idx => max idx 1
  | c :: rest, esc, trace, idx =>
    let temp := (c == ESC) || esc
    if !temp then
      let trace2 := trace + max 0 (wcwidth c)
      if trace2 > width then idx else columnsliceAux width rest false trace2 (idx+1)
    else if pyIsAlpha c then columnsliceAux width rest false trace (idx+1)
    else columnsliceAux width rest temp trace (idx+1)

def columnslice (s : List Char) (width : Int) : Nat :=
  columnsliceAux width s false 0 0

/-! ### Python bit-operation helpers

The source stores formatting entries as Python `int`s and manipulates
them with `>>`, `&`, `|`, `^`.  Python ints are two's complement with
infinitely many sign bits; for a negative `f` and a non-negative mask
`m`, `f & m = m - (~f & m)` and `~f = -f-1`. -/

/-- Python `f >> e` (arithmetic shift = floor division). -/
def pyShr (f : Int) (e : Nat) : Int := Int.fdiv f ((2:Int)^e)

/-- Python `f & m` for a natural mask `m`. -/
def pyAnd (f : Int) (m : Nat) : Nat :=
  if 0 ≤ f then f.toNat &&& m
  else m - ((-f - 1).toNat &&& m)

/-- Python `f | m` for a natural mask `m`. -/
def pyOr (f : Int) (m : Nat) : Int :=
  if 0 ≤ f then ((f.toNat ||| m : Nat) : Int)
  else -((((-f - 1).toNat - ((-f - 1).toNat &&& m) : Nat) : Int) + 1)

/-- Python `f ^ m` for a natural mask `m`. -/
def pyXor (f : Int) (m : Nat) : Int :=
  if 0 ≤ f then ((f.toNat ^^^ m : Nat) : Int)
  else -((((-f - 1).toNat ^^^ m : Nat) : Int) + 1)

/-! ### The color palette (`_ColorManager`, display.py:96-257)

The source keeps one global `colors` object.  Its state relevant to
`Coloring` is the list of color escape strings, `predefined` (number of
built-in colors), and the list of `(on, off)` effect pairs.  Users may
extend it with `def_color`/`def_effect`; theorems therefore take the
palette as a parameter, with the concrete start-up palette below as the
canonical instance. -/

structure Palette where
  colors : List (List Char)
  effects : List (List Char × List Char)
  predefined : Nat

/-- `_effects_bits = (1 << len(effects)) - 1` (display.py:134). -/
def Palette.effectsBits (p : Palette) : Nat := (1 <<< p.effects.length) - 1

/-- The palette as initialized in `_ColorManager.__init__`
(display.py:109-134). -/
def initPalette : Palette :=
  { colors := [ ("\x1b[39;22;49m").toList
              , ("\x1b[31;22;47m").toList
              , ("\x1b[31;22;49m").toList
              , ("\x1b[32;22;49m").toList
              , ("\x1b[33;22;49m").toList ]
  , effects := [ (("\x1b[7m").toList, ("\x1b[27m").toList)
               , (("\x1b[4m").toList, ("\x1b[24m").toList) ]
  , predefined := 5 }

/-- The generator `"".join(effect[bool((1 << i) & last_effect)] for
i, effect in enumerate(self.effects) if (1 << i) & next_effect)`
(display.py:154-155), unrolled with a running index `i`. -/
def effectsJoin : List (List Char × List Char) → Nat → Nat → Nat → List Char
  | [], _, _, _ => []
  | e :: rest, i, lastEffect, nextEffect =>
    (if (1 <<< i) &&& nextEffect ≠ 0 then
       (if (1 <<< i) &&& lastEffect ≠ 0 then e.2 else e.1)
     else []) ++ effectsJoin rest (i+1) lastEffect nextEffect

/-- `_continue_formatting` (display.py:151-155).  Out-of-range color
indexes raise `IndexError` in Python; the in-range hypothesis of each
theorem keeps this `getD` on the defined path. -/
def Palette.continueFormatting (p : Palette) (lastColor : Int)
    (lastEffect nextEffect : Nat) : List Char :=
  (if lastColor > 0 then p.colors.getD (lastColor - 1).toNat [] else [])
    ++ effectsJoin p.effects 0 lastEffect nextEffect

/-! ### `Coloring` (display.py:300-616)

A `Coloring` owns a string plus two parallel lists `_positions` /
`_formatting` and the cached `_maxpos`.  (`_parse_fractur` only maps
strings to strings before storage and is immaterial to the claims:
quantifying over all stored strings covers its images.) -/

structure Coloring where
  str : List Char
  positions : List Int
  formatting : List Int
  maxpos : Int
  deriving DecidableEq, Repr

/-- `Coloring.__init__` with an already-filtered string
(display.py:302-308). -/
def mkColoring (s : List Char) : Coloring :=
  { str := s, positions := [], formatting := [], maxpos := -1 }

/-- `_LINE_BREAKING = "- 　"` (display.py:50). -/
def isLineBreaking (c : Char) : Bool := c == '-' || c == ' ' || c == '　'

/-- Python `length >> 1` on an `Int`. -/
def pyShr1 (n : Int) : Int := Int.fdiv n 2

/-- Loop state of `Coloring.breaklines` (display.py:534-616).
Correspondence with the source locals:
`broken` = `broken`; `buffer` = `line_buffer`;
`pending` = the slice `self._str[start:pos]` (kept explicitly instead
of via the index `start`); `lastcol` = `lastcol`; `space` = `space`;
`fpos` = `format_pos` (`get_format` is `fpos < positions.length`);
`lastColor` = `last_color`; `lastEffect` = `last_effect`. -/
structure BLState where
  broken : List (List Char)
  buffer : List Char
  pending : List Char
  lastcol : Int
  space : Int
  fpos : Nat
  lastColor : Int
  lastEffect : Nat

def blInit (length : Int) : BLState :=
  { broken := [], buffer := [], pending := [], lastcol := 0,
    space := length, fpos := 0, lastColor := 0, lastEffect := 0 }

/-- `space -= lenj` and everything after it in the loop body
(display.py:586-609).  `endJ` is false exactly for `'\t'` (whose branch
already set `start = pos+1`); a hard break (display.py:606 `start =
pos`) re-includes the current character in the pending slice
regardless. -/
def blAfterWidth (pal : Palette) (length : Int) (outdent : List Char)
    (odlen : Int) (j : Char) (lenj : Int) (endJ : Bool) (st : BLState) :
    BLState :=
  let space2 := st.space - lenj
  -- display.py:588-592: move the word through the breaking character
  let moved := isLineBreaking j ∧ space2 > 0
  let st2 := if moved then
      { st with
        buffer := st.buffer ++ st.pending ++ [j]
        pending := []
        lastcol := space2 }
    else st
  if space2 ≤ 0 then
    if 0 < st2.lastcol ∧ st2.lastcol < pyShr1 length then
      -- display.py:595-599: split after the last breaking character
      { st2 with
        broken := st2.broken ++ [st2.buffer ++ CLEAR_FORMATTING]
        buffer := outdent ++ pal.continueFormatting st2.lastColor 0 st2.lastEffect
        pending := st2.pending ++ (if endJ then [j] else [])
        lastcol := 0
        space := length - odlen - (lenj + st2.lastcol) }
    else
      -- display.py:601-606: split on a long word (`start = pos`)
      { st2 with
        broken := st2.broken ++ [st2.buffer ++ st2.pending ++ CLEAR_FORMATTING]
        buffer := outdent ++ pal.continueFormatting st2.lastColor 0 st2.lastEffect
        pending := [j]
        lastcol := 0
        space := length - odlen - lenj }
  else
    { st2 with
      space := space2
      pending := st2.pending ++ (if ¬moved ∧ endJ then [j] else []) }

/-- The formatting event at the head of the loop body
(display.py:551-565). -/
def blFmt (pal : Palette) (positions formatting : List Int) (pos : Nat)
    (st : BLState) : BLState :=
  if st.fpos < positions.length ∧ (pos : Int) = positions.getD st.fpos 0 then
    let form := formatting.getD st.fpos 0
    let lastColor :=
      if pyShr form pal.effects.length = 0 then st.lastColor
      else pyShr form pal.effects.length
    let nextEffect := pyAnd form pal.effectsBits
    let buf := st.buffer ++ st.pending
    let buf := if st.space > 0 then
        buf ++ pal.continueFormatting lastColor st.lastEffect nextEffect
      else buf
    { st with
      buffer := buf
      pending := []
      fpos := st.fpos + 1
      lastColor := lastColor
      lastEffect := st.lastEffect ^^^ nextEffect }
  else st

/-- The per-character dispatch of the loop body (display.py:566-609). -/
def blDispatch (pal : Palette) (length : Int) (outdent : List Char)
    (odlen : Int) (keepEmpty : Bool) (j : Char) (st : BLState) : BLState :=
  if j == '\t' then
    -- display.py:566-569: tabs pad to the outdent width
    let lenj := odlen
    let st := { st with
      buffer := st.buffer ++ st.pending ++ List.replicate (min lenj st.space).toNat ' '
      pending := [] }
    blAfterWidth pal length outdent odlen j lenj false st
  else if j == '\r' || j == '\n' then
    -- display.py:571-582: forced break
    let broken :=
      if keepEmpty ∨ st.space ≠ length - odlen then
        st.broken ++ [st.buffer ++ st.pending ++ [' '] ++ CLEAR_FORMATTING]
      else st.broken
    { st with
      broken := broken
      buffer := outdent ++ pal.continueFormatting st.lastColor 0 st.lastEffect
      pending := []
      lastcol := 0
      space := length - odlen }
  else if j.toNat < 32 then
    -- display.py:583-584: other non-printing: skipped, but stays in the slice
    { st with pending := st.pending ++ [j] }
  else
    blAfterWidth pal length outdent odlen j (wcwidth j) true st

/-- One iteration of the `for pos, (j, lenj) in enumerate(...)` loop of
`breaklines` (display.py:549-609): the formatting event, then the
character dispatch. -/
def blStep (pal : Palette) (length : Int) (outdent : List Char)
    (odlen : Int) (keepEmpty : Bool) (positions formatting : List Int)
    (pos : Nat) (j : Char) (st : BLState) : BLState :=
  blDispatch pal length outdent odlen keepEmpty j
    (blFmt pal positions formatting pos st)

/-- The character loop of `breaklines`. -/
def blRun (pal : Palette) (length : Int) (outdent : List Char)
    (odlen : Int) (keepEmpty : Bool) (positions formatting : List Int) :
    List Char → Nat → BLState → BLState
  | [], _, st => st
  | j :: rest, pos, st =>
    blRun pal length outdent odlen keepEmpty positions formatting rest (pos+1)
      (blStep pal length outdent odlen keepEmpty positions formatting pos j st)

/-- `Coloring.breaklines` (display.py:534-616). -/
def Coloring.breaklines (pal : Palette) (c : Coloring) (length : Int)
    (outdent : List Char) (keepEmpty : Bool) : List (List Char) :=
  let odlen := collen outdent
  let st := blRun pal length outdent odlen keepEmpty c.positions c.formatting
    c.str 0 (blInit length)
  -- display.py:611-614: empty the buffer one last time
  if keepEmpty ∨ st.space ≠ length - odlen + collen st.pending then
    st.broken ++ [st.buffer ++ st.pending ++ CLEAR_FORMATTING]
  else st.broken

/-- The loop invariant behind claim C2 (amended): the buffer leaves
the escape FSM grounded; pending characters are printable; the visible
width of the line under construction plus the remaining `space` never
exceeds the requested width; after a break opportunity the pending
partial word fits in the recorded `lastcol`; `space` is non-negative
between iterations; and every emitted line fits. -/
def BLInv (length : Int) (st : BLState) : Prop :=
  escFinal false st.buffer = false
  ∧ (∀ c ∈ st.pending, 0 ≤ wcwidth c)
  ∧ collen st.buffer + collen st.pending + st.space ≤ length
  ∧ (0 < st.lastcol → collen st.pending + st.space ≤ st.lastcol)
  ∧ 0 ≤ st.space
  ∧ (∀ l ∈ st.broken, collen l ≤ length)

/-- The loop invariant behind claim C6 (amended): with an empty
outdent and printable text, the stripped emitted lines, the stripped
buffer and the pending slice tile the processed prefix `done` of the
text exactly. -/
def BLTile (done : List Char) (st : BLState) : Prop :=
  escFinal false st.buffer = false
  ∧ (∀ c ∈ st.pending, 0 ≤ wcwidth c)
  ∧ (st.broken.map stripEscapes).flatten ++ stripEscapes st.buffer ++ st.pending = done

/-! ### `JustifiedColoring` (display.py:618-760)

Adds an optional indicator `(sub, formatting-string)`, plus the memo
pair `_memoargs`/`_rendered`.  Python memoizes on
`hash((self, length, justchar, ensure_indicator))` where `hash(self)`
covers the string, the indicator and the (frozenset of the) run lists;
the model uses the underlying tuple itself as the key, which agrees
with Python whenever the state is unchanged (the situation the claim
quantifies over). -/

/-- Python slice `s[a:b]` for int indices. -/
def pySlice (s : List Char) (a b : Int) : List Char :=
  let n : Int := s.length
  let a2 := if a < 0 then max 0 (n + a) else min a n
  let b2 := if b < 0 then max 0 (n + b) else min b n
  (s.take b2.toNat).drop a2.toNat

/-- The dynamic type of a `places` entry's second component in
`_justify` (display.py:675-691): `None` (the ellipsis marker), an int,
or — through the `form = places[i]` slip at display.py:689 — a whole
`(position, form)` tuple. -/
inductive JForm where
  | noneMark : JForm
  | ival : Int → JForm
  | pair : Int → JForm → JForm
  deriving DecidableEq, Repr

/-- The `while i < len(self._positions) and self._positions[i] < right`
loop of `_justify` (display.py:688-691): walks `positions` from index
`i`, reading `form = places[i]` (a tuple!) as it goes; returns the
final `(i, form)`. -/
def jfWhile (positions : List Int) (places : List (Int × JForm)) (right : Int) :
    Nat → Nat → JForm → Nat × JForm
  | 0, i, form => (i, form)
  | fuel+1, i, form =>
    if i < positions.length ∧ positions.getD i 0 < right then
      let form2 := match places.getD i (0, JForm.noneMark) with
        | (p, g) => JForm.pair p g
      jfWhile positions places right fuel (i+1) form2
    else (i, form)

/-- `…`, `JustifiedColoring._ELLIPSIS` (display.py:623). -/
def ELLIPSIS : Char := '…'

/-- The rendering loop of `_justify` (display.py:693-723).  State:
`ret`, `tracker`, `last_effect`, `running_length`.  Applying `&` to a
tuple-valued `form` raises `TypeError` (`none`). -/
def renderPlaces (pal : Palette) (str : List Char) (left right : Int) :
    List (Int × JForm) → Int → Nat → List Char → Int → Option (List Char × Int)
  | [], tracker, _, ret, running =>
    let temp := pySlice str tracker (str.length : Int)
    some (ret ++ temp, collen temp + running)
  | (pos, form) :: rest, tracker, lastEffect, ret, running =>
    match form with
    | JForm.noneMark =>
      let temp := pySlice str tracker left ++ [ELLIPSIS]
      renderPlaces pal str left right rest tracker lastEffect (ret ++ temp)
        (running + collen temp)
    | JForm.pair _ _ => none
    | JForm.ival f =>
      if left < pos ∧ pos < right then
        renderPlaces pal str left right rest tracker lastEffect ret running
      else
        let nextEffect := pyAnd f pal.effectsBits
        let (ret2, running2) :=
          if ¬(tracker < right ∧ right = pos) then
            let temp := pySlice str tracker pos
            (ret ++ temp, running + collen temp)
          else (ret, running)
        let ret3 := ret2 ++ pal.continueFormatting (pyShr f pal.effects.length)
          lastEffect nextEffect
        renderPlaces pal str left right rest pos (lastEffect ^^^ nextEffect)
          ret3 running2

/-- `JustifiedColoring._justify` (display.py:664-723).  `halfNum` is
the numerator `length - ensure_indicator` of the Python float
`half_width`; its `floor`/`ceil` are taken exactly. -/
def justifyBackend (pal : Palette) (str : List Char)
    (positions formatting : List Int) (halfNum : Int) : Option (List Char × Int) :=
  if str = [] then some ([], 0)
  else
    let floorHalf := Int.fdiv halfNum 2
    let ceilHalf := -(Int.fdiv (-halfNum) 2)
    let right : Int := (str.length : Int) + 1 - (columnslice str.reverse floorHalf : Int)
    let places0 : List (Int × JForm) :=
      (positions.zip formatting).map (fun qg => (qg.1, JForm.ival qg.2))
    if right ≤ ((str.length / 2 : Nat) : Int) + 1 then
      let left := (str.length : Int) + 1
      renderPlaces pal str left left places0 0 0 [] 0
    else
      let left : Int := (columnslice str ceilHalf : Nat)
      let i0 := positions.countP (fun p => p < left)
      let places1 := places0.insertIdx i0 (left, JForm.noneMark)
      let iform := jfWhile positions places1 right (positions.length + 1) i0
        (JForm.ival 0)
      let places2 := places1.insertIdx (iform.1 + 1) (right, iform.2)
      renderPlaces pal str left right places2 0 0 [] 0

/-- Everything `hash((self, length, justchar, ensure_indicator))`
depends on (display.py:633-636, 728). -/
structure MemoKey where
  str : List Char
  indicator : Option (List Char × List Char)
  positions : List Int
  formatting : List Int
  length : Int
  justchar : List Char
  ensure : Int
  deriving DecidableEq, Repr

structure JustifiedColoring where
  str : List Char
  positions : List Int
  formatting : List Int
  maxpos : Int
  indicator : Option (List Char × List Char)
  memoargs : Option MemoKey
  rendered : Option (List Char)
  deriving DecidableEq, Repr

def memoKey (j : JustifiedColoring) (length : Int) (justchar : List Char)
    (ensure0 : Int) : MemoKey :=
  { str := j.str, indicator := j.indicator, positions := j.positions,
    formatting := j.formatting, length := length, justchar := justchar,
    ensure := ensure0 }

/-- `JustifiedColoring.justify` (display.py:725-760).  Returns the
rendered string and the updated object; `none` models a propagated
exception (the memo is then *not* updated). -/
def JustifiedColoring.justify (pal : Palette) (j : JustifiedColoring)
    (length : Int) (justchar : List Char) (ensure0 : Int) :
    Option (List Char × JustifiedColoring) :=
  let key := memoKey j length justchar ensure0
  if j.memoargs = some key then
    match j.rendered with
    | some r => some (r, j)
    | none => none
  else
    let sci : List Char × List Char × Int × Int :=
      match j.indicator with
      | none => ([], [], 0, 0)
      | some (sb, col) => (sb, col, collen sb, min ensure0 (collen sb))
    match sci with
    | (sub, color, columns, ensure) =>
      match justifyBackend pal j.str j.positions j.formatting (length - ensure) with
      | none => none
      | some (display, used) =>
        let room := length - used
        let (indicator, room2) :=
          if ensure ≠ 0 then
            let (sub2, columns2) :=
              if columns > ensure then
                let fc := columnslice sub (room - 2)
                let sub3 := if (fc : Int) < (sub.length : Int)
                  then sub.take fc ++ [ELLIPSIS] else sub.take fc
                (sub3, collen sub3)
              else (sub, columns)
            (color ++ sub2, room - columns2)
          else ([], room)
        let rendered := display
          ++ (List.replicate room2.toNat justchar).flatten
          ++ indicator ++ CLEAR_FORMATTING
        some (rendered, { j with memoargs := some key, rendered := some rendered })

/-! ### `Scrollable` (display.py:763-952)

Single-line scrolling text input.  Only the fields touched by the
claims are modelled: the owned string, the width, the cursor index
`_pos` and the display offset `_disp` (both Python ints).  The
non-scrolling prefix does not interact with these operations. -/

structure Scrollable where
  str : List Char
  width : Int
  pos : Int
  disp : Int
  deriving DecidableEq, Repr

/-- `Scrollable._TABLEN = 4` (display.py:766). -/
def TABLEN : Int := 4

/-- `Scrollable.__init__` (display.py:768-779).  Raises
`DisplayException` (modelled as `none`) when `width <= self._TABLEN`.
Note the source quirk: `_pos`/`_disp` are computed from the *unfiltered*
`string` argument while `_str` has DEL characters removed. -/
def mkScrollable (width : Int) (string : List Char) : Option Scrollable :=
  if width ≤ TABLEN then none
  else some
    { str := string.filter (fun c => c ≠ '\x7f')
      width := width
      pos := (string.length : Int)
      disp := max 0 (collen string - width) }

/-- `Scrollable.setwidth` (display.py:849-854): raises (`none`) when
`new <= 0`, otherwise stores the new width.  (`_onchanged` is a no-op
on the base class.) -/
def Scrollable.setwidth (s : Scrollable) (new : Int) : Option Scrollable :=
  if new ≤ 0 then none else some { s with width := new }

/-- `Scrollable.movepos` (display.py:857-869). -/
def Scrollable.movepos (s : Scrollable) (dist : Int) : Scrollable :=
  if s.str = [] then { s with pos := 0, disp := 0 }
  else
    let pos := max 0 (min (s.str.length : Int) (s.pos + dist))
    let curspos := pos - s.disp
    let disp :=
      if curspos ≤ 0 then max 0 (s.disp + dist)
      else if curspos + 1 ≥ s.width then min (pos - s.width + 1) (s.disp + dist)
      else s.disp
    { s with pos := pos, disp := disp }

/-- `Scrollable.append` (display.py:903-907): insert at the cursor
(with DEL characters removed) and move by `len(new)` — the *unfiltered*
length. -/
def Scrollable.append (s : Scrollable) (new : List Char) : Scrollable :=
  let s2 := { s with
    str := s.str.take s.pos.toNat ++ new.filter (fun c => c ≠ '\x7f')
        ++ s.str.drop s.pos.toNat }
  s2.movepos (new.length : Int)

/-- The operations quantified over by claim C4. -/
inductive ScrollOp where
  | append (new : List Char)
  | movepos (dist : Int)

def Scrollable.applyOp (s : Scrollable) : ScrollOp → Scrollable
  | .append new => s.append new
  | .movepos dist => s.movepos dist

def Scrollable.runOps (s : Scrollable) (ops : List ScrollOp) : Scrollable :=
  ops.foldl Scrollable.applyOp s

/-- The inductive invariant for claim C4 (amended): display offset and
cursor are character indexes with the cursor inside the window. -/
def Scrollable.inv (s : Scrollable) : Prop :=
  0 ≤ s.disp ∧ s.disp ≤ s.pos ∧ s.pos ≤ (s.str.length : Int)
    ∧ s.pos - s.disp < s.width
    ∧ (s.pos = (s.str.length : Int) → s.pos = 0 ∨ s.disp < s.pos)
    ∧ TABLEN < s.width

/-- Claim C4 speaks of the cursor's *column* position relative to the
display offset: the summed column widths of the characters between
`_disp` and `_pos`. -/
def cursorColumnOffset (s : Scrollable) : Int :=
  collen ((s.str.drop s.disp.toNat).take (s.pos - s.disp).toNat)

/-- The concrete `Scrollable(5, "abcdefgh")` used to refute claim C4:
`_pos = 8` but `_disp = max(0, collen - width) = 3`, so the cursor sits
5 ≥ width columns (and characters) past the display offset, and
`movepos(0)` keeps it there. -/
def badScroll : Scrollable :=
  { str := ("abcdefgh").toList, width := 5, pos := 8, disp := 3 }

/-! ### `Messages` (chat.py:177-566)

The scrollback.  `up`/`down`/`append` interact with a `Message` only
through its cached height (`msg.height = len(msg._cached_display)`):
with a fixed parent width, no recoloring and unfiltered messages,
`cache_display` never changes a cached height, so messages are
modelled by their heights.  `_all_messages` is kept newest-first
(`msgs.get? (select-1)` is `self._all_messages[-select]` for
`1 ≤ select ≤ len`).  All five viewport integers are Python ints
(`start_inner` can become `-1`, see chat.py:360), hence `Int`. -/

structure Messages where
  msgs : List Nat
  selector : Int
  start_message : Int
  start_inner : Int
  height_up : Int
  hidden_top : Int
  lazyLo : Int
  lazyHi : Int
  lazyOffset : Int
  deriving DecidableEq, Repr

/-- `Messages.__init__` (chat.py:179-193), ignoring the recolor
counter (inert in the height model). -/
def Messages.init : Messages :=
  { msgs := [], selector := 0, start_message := 0, start_inner := 0,
    height_up := 0, hidden_top := 0, lazyLo := 0, lazyHi := 0, lazyOffset := 0 }

/-- Python `self._all_messages[-select]` on the newest-first height
list: `none` is an `IndexError`. -/
def msgAt (msgs : List Nat) (select : Int) : Option Nat :=
  if 1 ≤ select ∧ select ≤ (msgs.length : Int) then
    msgs.get? (select - 1).toNat
  else if select ≤ 0 ∧ -select < (msgs.length : Int) then
    msgs.get? (msgs.length - 1 - (-select).toNat)
  else none

/-- `Messages.selected` (chat.py:229-235): `None` when `_selector` is
falsy; accessing `.height` on `None` raises, modelled by `none`. -/
def Messages.selected (m : Messages) : Option Nat :=
  if m.selector ≠ 0 then msgAt m.msgs m.selector else none

/-- `Messages.clear` (chat.py:203-215). -/
def Messages.clear (m : Messages) (domessages : Bool) : Messages :=
  let m := if domessages then
      { m with msgs := [], lazyLo := 0, lazyHi := 0, lazyOffset := 0 }
    else m
  { m with
    selector := 0
    start_message := 0
    start_inner := 0
    height_up := 0
    hidden_top := 0 }

/-- `Messages.stop_select` (chat.py:217-227). -/
def Messages.stop_select (m : Messages) : Messages × Bool :=
  if m.selector ≠ 0 then
    let m := if ¬(m.lazyLo ≤ m.start_message - m.lazyOffset
                ∧ m.start_message - m.lazyOffset < m.lazyHi) then
        { m with lazyLo := 0, lazyHi := 0 }
      else m
    let m := m.clear false
    ({ m with lazyOffset := 0 }, true)
  else (m, false)

/-- `Messages.append` (chat.py:413-430).  `h` is the new message's
cached height (`msg.cache_display` is called on entry). -/
def Messages.append (m : Messages) (pheight : Int) (h : Nat) : Messages :=
  let m := { m with msgs := h :: m.msgs }
  if m.selector ≠ 0 then
    let m := { m with selector := m.selector + 1 }
    if m.start_message = 0 ∧ (h : Int) + m.height_up ≤ pheight - 1 then
      { m with
        height_up := m.height_up + (h : Int)
        lazyOffset := m.lazyOffset + 1 }
    else
      { m with start_message := m.start_message + 1 }
  else m

/-- The `while startlines <= amount` loop of `_justify_start`
(chat.py:337-340); returns `(start, startlines, last_height)`.  Fuel
strictly dominates the iteration count (the loop either leaves the
list, raising `IndexError` = `none`, or exits). -/
def justifyStartLoop (msgs : List Nat) :
    Nat → Int → Int → Int → Int → Option (Int × Int × Int)
  | 0, _, _, _, _ => none
  | fuel+1, start, startlines, lastH, amount =>
    if startlines ≤ amount then
      match msgAt msgs start with
      | none => none
      | some h => justifyStartLoop msgs fuel (start+1) (startlines + (h:Int)) (h:Int) amount
    else some (start, startlines, lastH)

/-- `Messages._justify_start` (chat.py:333-351). -/
def Messages.justify_start (m : Messages) (amount height : Int) : Option Messages :=
  let start0 := m.start_message + 1
  let fuel := m.msgs.length + 3 + (max 0 (1 - start0)).toNat
  match justifyStartLoop m.msgs fuel start0 (-m.start_inner) 0 amount with
  | none => none
  | some (start, startlines, lastH) =>
    let m := { m with start_message := start - 2 }
    let m :=
      if startlines - lastH = amount then { m with start_inner := 0 }
      else if startlines = lastH then { m with start_inner := amount }
      else { m with start_inner := lastH - startlines + amount }
    some { m with height_up := height }

/-- The message-walking loop of `up` (chat.py:298-309); returns
`(select, addlines)`.  The `cache_display` call inside only refreshes a
cache and cannot change a height here. -/
def upLoop (msgs : List Nat) :
    Nat → Int → Int → Int → Int → Option (Int × Int)
  | 0, _, _, _, _ => none
  | fuel+1, select, num, addlines, amount =>
    if num < amount then
      if select > (msgs.length : Int) then some (select, addlines)
      else
        match msgAt msgs select with
        | none => none
        | some h =>
          upLoop msgs fuel (select+1)
            (if h ≠ 0 then num+1 else num)
            (if h ≠ 0 then addlines + (h:Int) else addlines) amount
    else some (select, addlines)

/-- `Messages.up` (chat.py:270-331). -/
def Messages.up (m0 : Messages) (pheight : Int) (amount0 : Int) :
    Option (Messages × Int) :=
  let height := pheight - 1
  let select := m0.selector + 1
  -- chat.py:275-292: consume lines inside the selected top message, or
  -- lines hidden above the viewport; `Sum.inl` = early return
  let stage1 : Option (Sum (Messages × Int) (Messages × Int)) :=
    if m0.start_message + 1 = m0.selector then
      match m0.selected with
      | none => none
      | some selH =>
        let new_inner := min (m0.start_inner + amount0) ((selH : Int) - height)
        let m1 := { m0 with hidden_top := 0 }
        if new_inner ≥ m0.start_inner then
          let inner_diff := new_inner - m0.start_inner
          let m2 := { m1 with start_inner := new_inner }
          let amount1 := amount0 - inner_diff
          if amount1 ≤ 0 then some (Sum.inl (m2, inner_diff))
          else some (Sum.inr (m2, amount1))
        else some (Sum.inr (m1, amount0))
    else if m0.hidden_top > 0 then
      let delta := m0.hidden_top - amount0
      if delta ≥ 0 ∨ amount0 > 1 then
        match { m0 with hidden_top := delta }.justify_start amount0 height with
        | none => none
        | some m2 => some (Sum.inl (m2, amount0))
      else
        some (Sum.inr ({ m0 with hidden_top := 0 }, amount0 - m0.hidden_top))
    else some (Sum.inr (m0, amount0))
  match stage1 with
  | none => none
  | some (Sum.inl r) => some r
  | some (Sum.inr (m1, amount)) =>
    let fuel := m1.msgs.length + 2 + (max 0 (1 - select)).toNat
    match upLoop m1.msgs fuel select 0 0 amount with
    | none => none
    | some (selectF, addlines) =>
      let m2 := { m1 with
        lazyHi := max (m1.lazyHi + m1.lazyOffset) selectF
        lazyOffset := 0
        selector := selectF - 1 }
      let m3 := { m2 with height_up := m2.height_up + addlines }
      if m3.height_up > height then
        let delta := m3.height_up - height
        if amount = 1 then
          if addlines - delta > 0 then
            some ({ m3 with hidden_top := delta, height_up := height }, 1)
          else
            match m3.justify_start (min addlines 1) height with
            | none => none
            | some m4 => some ({ m4 with hidden_top := addlines - 1 }, 1)
        else
          match m3.justify_start delta height with
          | none => none
          | some m4 => some (m4, delta)
      else some (m3, addlines)

/-- The message-walking loop of `down` (chat.py:379-391); `some none` =
the `select == 0` path (deselect via `stop_select`, whole call returns
0), `some (some ...)` = `(select, last_height, addlines)`. -/
def downLoop (msgs : List Nat) :
    Nat → Int → Int → Int → Int → Int → Option (Option (Int × Int × Int))
  | 0, _, _, _, _, _ => none
  | fuel+1, select, lastH, num, addlines, amount =>
    if num ≤ amount then
      if select = 0 then some none
      else
        match msgAt msgs select with
        | none => none
        | some h =>
          downLoop msgs fuel (select-1) (h:Int)
            (if h ≠ 0 then num+1 else num)
            (if h ≠ 0 then addlines + (h:Int) else addlines) amount
    else some (some (select, lastH, addlines))

/-- `Messages.down` (chat.py:353-411). -/
def Messages.down (m0 : Messages) (pheight : Int) (amount0 : Int) :
    Option (Messages × Int) :=
  if m0.selector = 0 then some (m0, 0)
  else
    let height := pheight - 1
    -- chat.py:358-371: scroll within the selected top message
    let stage1 : Option (Sum (Messages × Int) (Messages × Int)) :=
      if m0.selector = m0.start_message + 1 ∧ m0.start_inner > 0 then
        let m1 := { m0 with hidden_top := 0 }
        let new_inner := max (-1) (m1.start_inner - amount0)
        let inner_diff := m1.start_inner - new_inner
        let m2 := { m1 with
          start_inner := new_inner
          height_up := min height (m1.height_up + amount0) }
        let amount1 := amount0 - inner_diff
        if new_inner < 0 then
          if m2.selector = 1 then some (Sum.inl ((m2.stop_select).1, 0))
          else some (Sum.inl (m2, inner_diff))
        else if amount1 ≤ 0 then some (Sum.inl (m2, inner_diff))
        else some (Sum.inr (m2, amount1))
      else some (Sum.inr (m0, amount0))
    match stage1 with
    | none => none
    | some (Sum.inl r) => some r
    | some (Sum.inr (m1, amount)) =>
      let fuel := (max 0 m1.selector).toNat + m1.msgs.length + 2
      match downLoop m1.msgs fuel m1.selector 0 0 0 amount with
      | none => none
      | some none => some ((m1.stop_select).1, 0)
      | some (some (selectF, lastH, addlines)) =>
        let m2 := { m1 with
          lazyLo := min (m1.lazyLo + m1.lazyOffset) (selectF + 1)
          lazyOffset := 0
          selector := selectF + 1 }
        let m3 := { m2 with height_up := m2.height_up - (addlines - lastH) }
        if m3.height_up < lastH ∧ selectF < m3.start_message then
          let m4 := { m3 with start_message := selectF }
          match m4.selected with
          | none => none
          | some selH =>
            if amount = 1 then
              -- chat.py:402-404: early `return 1` — note it *skips*
              -- the final `self._hidden_top = 0`
              some ({ m4 with start_inner := (selH:Int) - 1, height_up := 1 }, 1)
            else
              some ({ m4 with
                start_inner := max ((selH:Int) - height) 0
                height_up := min (selH:Int) height
                hidden_top := 0 }, addlines)
        else if m3.hidden_top > (0:Int) then
          some ({ m3 with
            height_up := max (height - m3.hidden_top) 1
            hidden_top := 0 }, addlines)
        else some ({ m3 with hidden_top := 0 }, addlines)

/-- The operation alphabet for reachable `Messages` states. -/
inductive MsgOp where
  | append (h : Nat)
  | up (k : Int)
  | down (k : Int)
  deriving DecidableEq, Repr

def Messages.applyOp (m : Messages) (pheight : Int) : MsgOp → Option Messages
  | .append h => some (m.append pheight h)
  | .up k => (m.up pheight k).map Prod.fst
  | .down k => (m.down pheight k).map Prod.fst

def Messages.runOps (m : Messages) (pheight : Int) : List MsgOp → Option Messages
  | [] => some m
  | op :: rest =>
    match m.applyOp pheight op with
    | none => none
    | some m2 => m2.runOps pheight rest

/-- The five viewport integers of claim C1. -/
def Messages.viewport (m : Messages) : Int × Int × Int × Int × Int :=
  (m.selector, m.start_message, m.start_inner, m.height_up, m.hidden_top)

/-- The reachable state refuting claim C1: viewport height 3
(`parent.height = 4`), a single message of height 5, after `append`
and one `up(1)` (the top three lines of the message are shown, two are
clipped above, `hidden_top = 2`). -/
def stA : Messages :=
  { msgs := [5], selector := 1, start_message := 0, start_inner := 0,
    height_up := 3, hidden_top := 2, lazyLo := 0, lazyHi := 2, lazyOffset := 0 }

/-- `stA` after one more `up(1)` (one more line of the tall message
scrolled past; `hidden_top` zeroed by chat.py:278). -/
def stB : Messages :=
  { msgs := [5], selector := 1, start_message := 0, start_inner := 1,
    height_up := 3, hidden_top := 0, lazyLo := 0, lazyHi := 2, lazyOffset := 0 }

/-- `stB` after `down(1)`: `start_inner` is undone but `hidden_top`
stays 0, so the viewport tuple differs from `stA`. -/
def stC : Messages :=
  { msgs := [5], selector := 1, start_message := 0, start_inner := 0,
    height_up := 3, hidden_top := 0, lazyLo := 0, lazyHi := 2, lazyOffset := 0 }

/-- The concrete `Messages` state witnessing claim C8 (one height-1
message, selected, scrolled to the bottom, viewport height 3). -/
def stW8 : Messages :=
  { msgs := [1], selector := 1, start_message := 0, start_inner := 0,
    height_up := 1, hidden_top := 0, lazyLo := 0, lazyHi := 2, lazyOffset := 0 }

/-- A well-formed ANSI chunk: invisible to `collen`/`stripEscapes` and
leaving the escape FSM in the ground state.  All palette entries built
by `_ColorManager` (`"\x1b[...m"` strings) satisfy it. -/
def EscChunk (s : List Char) : Prop :=
  stripEscAux false s = [] ∧ escFinal false s = false

/-- Palette entries are well-formed ANSI chunks. -/
def Palette.WF (p : Palette) : Prop :=
  (∀ c ∈ p.colors, EscChunk c) ∧ (∀ e ∈ p.effects, EscChunk e.1 ∧ EscChunk e.2)

/-! ### `Coloring` run-list mutation (display.py:410-481)

`_insert_color` and `effect_range` walk the parallel `_positions` /
`_formatting` lists with one index `i`, always mutating them in
lockstep; they are modelled over the zipped pair list
(`c.positions.zip c.formatting`), with the results unzipped back.
`none` models the `IndexError`/`ValueError` paths. -/

/-- The `while position > self._positions[i]` walk plus the
insert-or-merge at the found index (display.py:417-425). -/
def icWalk (eb : Nat) (position f : Int) : List (Int × Int) → Option (List (Int × Int))
  | [] => none
  | (p, g) :: rest =>
    if position > p then (icWalk eb position f rest).map (fun rs => (p, g) :: rs)
    else if p = position then some ((p, pyOr f (pyAnd g eb)) :: rest)
    else some ((position, f) :: (p, g) :: rest)

/-- `Coloring._insert_color` (display.py:410-425). -/
def Coloring.insertColorBackend (pal : Palette) (c : Coloring) (position f : Int) :
    Option Coloring :=
  if position > c.maxpos then
    some { c with
      positions := c.positions ++ [position]
      formatting := c.formatting ++ [f]
      maxpos := position }
  else
    (icWalk pal.effectsBits position f (c.positions.zip c.formatting)).map
      (fun rs => { c with
        positions := rs.map Prod.fst
        formatting := rs.map Prod.snd })

/-- `Coloring.insert_color` (display.py:427-436): clamp a negative
position, bias the color by `predefined + 1` and shift it above the
effect bits. -/
def Coloring.insert_color (pal : Palette) (c : Coloring) (position0 f0 : Int) :
    Option Coloring :=
  let position := if position0 < 0 then max (position0 + (c.str.length : Int)) 0
    else position0
  let f := (f0 + (pal.predefined : Int) + 1) * ((2 : Int) ^ pal.effects.length)
  c.insertColorBackend pal position f

/-- The second walk of `effect_range` plus its tail
(display.py:468-481): toggle the effect bit off inside the range, then
place the closing toggle: append at the very end when `end` exceeds
`_maxpos`, merge into an entry equal to `end`, insert before the first
larger entry otherwise; running off the list with `end ≤ _maxpos` is
the `IndexError` at display.py:477. -/
def erWalk2 (eff : Nat) (endv maxpos : Int) : List (Int × Int) → Option (List (Int × Int))
  | [] => if endv > maxpos then some [(endv, (eff : Int))] else none
  | (p, g) :: rest =>
    if endv > p then
      let g2 := if pyAnd g eff ≠ 0 then pyXor g eff else g
      (erWalk2 eff endv maxpos rest).map (fun rs => (p, g2) :: rs)
    else
      if endv > maxpos then some (((p, g) :: rest) ++ [(endv, (eff : Int))])
      else if p = endv then some ((p, pyOr g eff) :: rest)
      else some ((endv, (eff : Int)) :: (p, g) :: rest)

/-- The first walk of `effect_range` (display.py:458-466): find the
first entry not below `start`, toggle the bit on there (merging into an
equal entry), then hand the remainder to `erWalk2`. -/
def erWalk1 (eff : Nat) (start endv maxpos : Int) : List (Int × Int) →
    Option (List (Int × Int))
  | [] => none
  | (p, g) :: rest =>
    if start > p then (erWalk1 eff start endv maxpos rest).map (fun rs => (p, g) :: rs)
    else if p = start then
      (erWalk2 eff endv maxpos rest).map (fun rs => (p, pyOr g eff) :: rs)
    else
      (erWalk2 eff endv maxpos ((p, g) :: rest)).map
        (fun rs => (start, (eff : Int)) :: rs)

/-- `Coloring.effect_range` (display.py:438-481).  `end` is passed as
an `Int` (the `None` default behaves as 0).  A negative effect number
makes `1 << formatting` raise `ValueError` (`none`). -/
def Coloring.effect_range (pal : Palette) (c : Coloring) (start0 end0 f0 : Int) :
    Option Coloring :=
  let start := if start0 < 0 then (c.str.length : Int) + start0 else start0
  let endv := if end0 ≤ 0 then (c.str.length : Int) + end0 else end0
  if start ≥ endv then some c
  else if f0 < 0 then none
  else
    let eff : Nat := 1 <<< f0.toNat
    if start > c.maxpos then
      some { c with
        positions := c.positions ++ [start, endv]
        formatting := c.formatting ++ [(eff : Int), (eff : Int)]
        maxpos := endv }
    else
      (erWalk1 eff start endv c.maxpos (c.positions.zip c.formatting)).map
        (fun rs => { c with
          positions := rs.map Prod.fst
          formatting := rs.map Prod.snd
          maxpos := if endv > c.maxpos then endv else c.maxpos })

/-- The mutation alphabet of claim C7. -/
inductive ColorOp where
  | insert (pos f : Int)
  | effect (s e f : Int)
  deriving DecidableEq, Repr

def Coloring.applyColorOp (pal : Palette) (c : Coloring) : ColorOp → Option Coloring
  | .insert pos f => c.insert_color pal pos f
  | .effect s e f => c.effect_range pal s e f

def Coloring.runColorOps (pal : Palette) (c : Coloring) : List ColorOp → Option Coloring
  | [] => some c
  | op :: rest =>
    match c.applyColorOp pal op with
    | none => none
    | some c2 => c2.runColorOps pal rest

/-- The C7 invariant: positions strictly increasing, the two run lists
parallel, and `_maxpos` caching the last (largest) position. -/
def Coloring.runInv (c : Coloring) : Prop :=
  c.positions.Pairwise (· < ·)
    ∧ c.positions.length = c.formatting.length
    ∧ c.maxpos = c.positions.getLast?.getD (-1)

/-! ### Command resolution (`base.py:26-105`, `util.py:438-510`)

`Command.run` splits the command line with `argsplit` (a fresh
`_Splitter` whose flags are cleared between calls) and resolves the
first word against the registered command names by prefix; the command
dict preserves registration order. -/

/-- `_Splitter._argsplit` (util.py:461-485).  State: buffer, collected
args, `_single`, `_double`, `_escaping`. -/
def argsplitAux : List Char → List Char → List (List Char) → Bool → Bool → Bool →
    List (List Char)
  | [], buffer, args, _, _, _ => args ++ [buffer]
  | i :: rest, buffer, args, single, double, escaping =>
    if escaping then
      let i2 := if single || double then '\\' else i
      argsplitAux rest (buffer ++ [i2]) args single double false
    else if i == '\\' && !(single || double) then
      argsplitAux rest buffer args single double true
    else if i == '\'' && !double then
      argsplitAux rest buffer args (!single) double false
    else if i == '"' && !single then
      argsplitAux rest buffer args single (!double) false
    else if i == ' ' && !(single || double) then
      argsplitAux rest [] (args ++ [buffer]) single double false
    else
      argsplitAux rest (buffer ++ [i]) args single double false

/-- `argsplit` (util.py:455-459): flags start clear. -/
def argsplit (s : List Char) : List (List Char) :=
  argsplitAux s [] [] false false false

/-- The three outcomes of `Command.run` (base.py:80-93): a "command not
found" status notification, an "ambiguous command" status notification
(listing up to ten candidates), or scheduling the unique match.  The
two notification outcomes never raise and never invoke a command. -/
inductive CommandAction where
  | notFound (name : List Char)
  | ambiguous (possible : List (List Char))
  | invoke (name : List Char) (args : List (List Char))
  deriving DecidableEq, Repr

/-- `Command.run` (base.py:80-93).  `commands` is the list of
registered command names in registration order. -/
def commandRun (commands : List (List Char)) (string : List Char) : CommandAction :=
  let args := argsplit string
  let head := args.headI
  let possible := commands.filter (fun c => head.isPrefixOf c)
  if possible.isEmpty then .notFound head
  else if possible.length > 1 then .ambiguous (possible.take 10)
  else .invoke possible.headI (args.drop 1)

/-! ## Theorems -/

/-! ### Escape-FSM composition lemmas -/

theorem escFinal_append (b : List Char) :
    ∀ (a : List Char) (e : Bool), escFinal e (a ++ b) = escFinal (escFinal e a) b := by
  intro a
  induction a with
  | nil => intro e; rfl
  | cons c rest ih =>
    intro e
    rw [List.cons_append]
    simp only [escFinal]
    split_ifs <;> exact ih _

theorem stripEscAux_append (b : List Char) :
    ∀ (a : List Char) (e : Bool),
      stripEscAux e (a ++ b) = stripEscAux e a ++ stripEscAux (escFinal e a) b := by
  intro a
  induction a with
  | nil => intro e; rfl
  | cons c rest ih =>
    intro e
    rw [List.cons_append]
    simp only [stripEscAux, escFinal]
    split_ifs <;> simp only [ih, List.cons_append]

theorem collenAux_append (b : List Char) :
    ∀ (a : List Char) (e : Bool),
      collenAux e (a ++ b) = collenAux e a + collenAux (escFinal e a) b := by
  intro a
  induction a with
  | nil => intro e; simp [collenAux, escFinal]
  | cons c rest ih =>
    intro e
    rw [List.cons_append]
    simp only [collenAux, escFinal]
    split_ifs <;> simp only [ih] <;> ring

theorem collenAux_nonneg : ∀ (a : List Char) (e : Bool), 0 ≤ collenAux e a := by
  intro a
  induction a with
  | nil => intro e; simp [collenAux]
  | cons c rest ih =>
    intro e
    unfold collenAux
    dsimp only
    split_ifs with h1 h2
    · have := ih false
      have : (0:Int) ≤ max 0 (wcwidth c) := le_max_left 0 _
      positivity
    · exact ih false
    · exact ih _

theorem printable_ne_esc {c : Char} (hc : 0 ≤ wcwidth c) : (c == ESC) = false := by
  rw [beq_eq_false_iff_ne]
  intro hx
  subst hx
  have : wcwidth ESC = -1 := by decide
  omega

theorem printable_strip : ∀ (l : List Char), (∀ c ∈ l, 0 ≤ wcwidth c) →
    stripEscAux false l = l ∧ escFinal false l = false := by
  intro l
  induction l with
  | nil => intro _; exact ⟨rfl, rfl⟩
  | cons c rest ih =>
    intro h
    have hcne := printable_ne_esc (h c (List.mem_cons_self _ _))
    have ihr := ih (fun x hx => h x (List.mem_cons_of_mem _ hx))
    constructor
    · simp [stripEscAux, hcne, ihr.1]
    · simp [escFinal, hcne, ihr.2]

theorem printable_collen : ∀ (l : List Char), (∀ c ∈ l, 0 ≤ wcwidth c) →
    collen l = (l.map wcwidth).sum := by
  intro l
  induction l with
  | nil => intro _; rfl
  | cons c rest ih =>
    intro h
    have hc : 0 ≤ wcwidth c := h c (List.mem_cons_self _ _)
    have hcne := printable_ne_esc hc
    have ihr := ih (fun x hx => h x (List.mem_cons_of_mem _ hx))
    unfold collen at ihr ⊢
    simp only [collenAux, hcne, Bool.false_or, Bool.not_false, if_true, List.map_cons,
      List.sum_cons]
    rw [ihr]
    omega

theorem collenAux_strip : ∀ (s : List Char) (e : Bool),
    collenAux e s = ((stripEscAux e s).map (fun c => max 0 (wcwidth c))).sum := by
  intro s
  induction s with
  | nil => intro e; rfl
  | cons c rest ih =>
    intro e
    unfold collenAux stripEscAux
    dsimp only
    split_ifs
    · simp only [List.map_cons, List.sum_cons, ih]
    · exact ih false
    · exact ih _

theorem escChunk_collen {s : List Char} (h : EscChunk s) : collen s = 0 := by
  unfold collen
  rw [collenAux_strip, h.1]
  rfl

theorem escChunk_nil : EscChunk [] := ⟨rfl, rfl⟩

theorem escChunk_append {a b : List Char} (ha : EscChunk a) (hb : EscChunk b) :
    EscChunk (a ++ b) := by
  constructor
  · rw [stripEscAux_append, ha.1, ha.2, hb.1]
    rfl
  · rw [escFinal_append, ha.2, hb.2]

theorem escChunk_getD {l : List (List Char)} (h : ∀ x ∈ l, EscChunk x) (i : Nat) :
    EscChunk (l.getD i []) := by
  unfold List.getD
  cases hg : l.get? i with
  | none => exact escChunk_nil
  | some x =>
    have : x ∈ l := List.get?_mem hg
    exact h x this

theorem escChunk_effectsJoin {effects : List (List Char × List Char)}
    (h : ∀ e ∈ effects, EscChunk e.1 ∧ EscChunk e.2) :
    ∀ (i lastEffect nextEffect : Nat),
      EscChunk (effectsJoin effects i lastEffect nextEffect) := by
  induction effects with
  | nil => intro i le ne; exact escChunk_nil
  | cons e rest ih =>
    intro i le ne
    have he := h e (List.mem_cons_self _ _)
    have ihr := ih (fun x hx => h x (List.mem_cons_of_mem _ hx))
    unfold effectsJoin
    apply escChunk_append
    · split_ifs
      · exact he.2
      · exact he.1
      · exact escChunk_nil
    · exact ihr _ _ _

theorem escChunk_continueFormatting {pal : Palette} (hWF : pal.WF)
    (lc : Int) (le ne : Nat) : EscChunk (pal.continueFormatting lc le ne) := by
  unfold Palette.continueFormatting
  apply escChunk_append
  · split_ifs
    · exact escChunk_getD hWF.1 _
    · exact escChunk_nil
  · exact escChunk_effectsJoin hWF.2 _ _ _

theorem escChunk_clear : EscChunk CLEAR_FORMATTING := by
  constructor <;> decide

theorem initPalette_WF : Palette.WF initPalette := by
  constructor
  · intro c hc
    fin_cases hc <;> exact ⟨by decide, by decide⟩
  · intro e he
    fin_cases he <;> exact ⟨⟨by decide, by decide⟩, ⟨by decide, by decide⟩⟩

theorem wcwidth_le_two (c : Char) : wcwidth c ≤ 2 := by
  unfold wcwidth
  split_ifs <;> norm_num

theorem printable_ge {c : Char} (hc : 0 ≤ wcwidth c) : 32 ≤ c.toNat ∧ c.toNat ≠ 127 := by
  unfold wcwidth at hc
  by_cases h : c.toNat < 32 ∨ c.toNat = 127
  · rw [if_pos h] at hc
    omega
  · push_neg at h
    omega

theorem printable_ne_low {c d : Char} (hc : 0 ≤ wcwidth c) (hd : d.toNat < 32) :
    (c == d) = false := by
  rw [beq_eq_false_iff_ne]
  intro hx
  subst hx
  have := printable_ge hc
  omega

theorem collen_ground_append {a : List Char} (b : List Char)
    (ha : escFinal false a = false) : collen (a ++ b) = collen a + collen b := by
  unfold collen
  rw [collenAux_append, ha]

theorem strip_ground_append {a : List Char} (b : List Char)
    (ha : escFinal false a = false) :
    stripEscapes (a ++ b) = stripEscapes a ++ stripEscapes b := by
  unfold stripEscapes
  rw [stripEscAux_append, ha]

theorem escFinal_ground_append {a b : List Char} (ha : escFinal false a = false)
    (hb : escFinal false b = false) : escFinal false (a ++ b) = false := by
  rw [escFinal_append, ha, hb]

theorem collen_nonneg (l : List Char) : 0 ≤ collen l := collenAux_nonneg l false

theorem collen_singleton {j : Char} (hj : 0 ≤ wcwidth j) : collen [j] = wcwidth j := by
  rw [printable_collen [j] (by intro c hc; rcases List.mem_singleton.mp hc with rfl; exact hj)]
  simp

theorem pyShr1_two_mul {a n : Int} (h : a < pyShr1 n) : 2 * a + 2 ≤ n := by
  unfold pyShr1 at h
  rw [Int.fdiv_eq_ediv _ (by norm_num)] at h
  omega

theorem getLast?_mem_of_eq_some {α : Type} {l : List α} {M : α}
    (h : l.getLast? = some M) : M ∈ l := by
  have hne : l ≠ [] := by
    intro hx
    rw [hx] at h
    cases h
  rw [List.getLast?_eq_getLast_of_ne_nil hne, Option.some_inj] at h
  rw [← h]
  exact List.getLast_mem hne

theorem getLast?_cons_ne {α : Type} {a : α} {l : List α} (h : l ≠ []) :
    (a :: l).getLast? = l.getLast? := by
  cases l with
  | nil => exact absurd rfl h
  | cons b t => rw [List.getLast?_cons_cons]

theorem pairwise_le_getLast :
    ∀ (l : List Int), l.Pairwise (· < ·) → ∀ (M : Int), l.getLast? = some M →
      ∀ q ∈ l, q ≤ M := by
  intro l
  induction l with
  | nil => intro _ M hM q hq; cases hq
  | cons a rest ih =>
    intro hp M hM q hq
    rcases List.pairwise_cons.mp hp with ⟨ha, hrest⟩
    cases rest with
    | nil =>
      simp only [List.getLast?_singleton, Option.some_inj] at hM
      rcases List.mem_singleton.mp hq with rfl
      omega
    | cons b rest2 =>
      rw [List.getLast?_cons_cons] at hM
      have hMmem : M ∈ b :: rest2 := getLast?_mem_of_eq_some hM
      rcases List.mem_cons.mp hq with rfl | hq2
      · exact le_of_lt (ha M hMmem)
      · exact ih hrest M hM q hq2

theorem icWalk_mem (eb : Nat) (f : Int) :
    ∀ (runs : List (Int × Int)) (pp : Int),
      (runs.map Prod.fst).Pairwise (· < ·) → pp ∈ runs.map Prod.fst →
      icWalk eb pp f runs
        = some (runs.map (fun qg =>
            if qg.1 = pp then (qg.1, pyOr f (pyAnd qg.2 eb)) else qg)) := by
  intro runs
  induction runs with
  | nil => intro pp _ hmem; cases hmem
  | cons pg rest ih =>
    intro pp hp hmem
    obtain ⟨p, g⟩ := pg
    simp only [List.map_cons, List.pairwise_cons] at hp
    obtain ⟨hlt, hrest⟩ := hp
    unfold icWalk
    by_cases hgt : pp > p
    · rw [if_pos hgt]
      have hmem2 : pp ∈ rest.map Prod.fst := by
        rcases List.mem_cons.mp hmem with rfl | h2
        · omega
        · exact h2
      rw [ih pp hrest hmem2]
      simp only [Option.map_some', List.map_cons]
      rw [if_neg (show ¬((p, g).1 = pp) by dsimp only; omega)]
    · rw [if_neg hgt]
      have hpp : p = pp := by
        rcases List.mem_cons.mp hmem with rfl | h2
        · rfl
        · have := hlt pp h2
          omega
      rw [if_pos hpp]
      subst hpp
      have htail : rest.map (fun qg : Int × Int =>
          if qg.1 = p then (qg.1, pyOr f (pyAnd qg.2 eb)) else qg) = rest := by
        have hcg : ∀ qg ∈ rest, (if qg.1 = p then (qg.1, pyOr f (pyAnd qg.2 eb)) else qg)
            = id qg := by
          intro qg hqg
          have hq : p < qg.1 := hlt qg.1 (List.mem_map_of_mem Prod.fst hqg)
          rw [if_neg (by omega : ¬(qg.1 = p)), id]
        rw [List.map_congr_left hcg, List.map_id]
      simp only [List.map_cons]
      rw [htail]
      simp

theorem icWalk_inv (eb : Nat) (f : Int) :
    ∀ (runs : List (Int × Int)) (pos : Int),
      (runs.map Prod.fst).Pairwise (· < ·) →
      (∃ q ∈ runs.map Prod.fst, pos ≤ q) →
      ∃ rs, icWalk eb pos f runs = some rs
        ∧ rs ≠ []
        ∧ (rs.map Prod.fst).Pairwise (· < ·)
        ∧ (∀ q ∈ rs.map Prod.fst, q = pos ∨ q ∈ runs.map Prod.fst)
        ∧ (rs.map Prod.fst).getLast? = (runs.map Prod.fst).getLast? := by
  intro runs
  induction runs with
  | nil => intro pos _ hex; obtain ⟨q, hq, _⟩ := hex; cases hq
  | cons pg rest ih =>
    intro pos hp hex
    obtain ⟨p, g⟩ := pg
    simp only [List.map_cons, List.pairwise_cons] at hp
    obtain ⟨hlt, hrest⟩ := hp
    unfold icWalk
    by_cases hgt : pos > p
    · rw [if_pos hgt]
      have hex2 : ∃ q ∈ rest.map Prod.fst, pos ≤ q := by
        obtain ⟨q, hq, hle⟩ := hex
        rcases List.mem_cons.mp hq with rfl | h2
        · omega
        · exact ⟨q, h2, hle⟩
      obtain ⟨rs', hw, hne, hpw, hsub, hlast⟩ := ih pos hrest hex2
      refine ⟨(p, g) :: rs', by rw [hw]; rfl, by simp, ?_, ?_, ?_⟩
      · simp only [List.map_cons, List.pairwise_cons]
        refine ⟨?_, hpw⟩
        intro q hq
        rcases hsub q hq with rfl | h2
        · omega
        · exact hlt q h2
      · intro q hq
        rcases List.mem_cons.mp hq with rfl | h2
        · right; exact List.mem_cons_self _ _
        · rcases hsub q h2 with rfl | h3
          · left; rfl
          · right; exact List.mem_cons_of_mem _ h3
      · have hne' : rs'.map Prod.fst ≠ [] := by
          simpa using hne
        have hrne : rest.map Prod.fst ≠ [] := by
          obtain ⟨q, hq, _⟩ := hex2
          intro hx
          rw [hx] at hq
          cases hq
        simp only [List.map_cons]
        rw [getLast?_cons_ne hne', getLast?_cons_ne hrne]
        exact hlast
    · rw [if_neg hgt]
      by_cases heq : p = pos
      · rw [if_pos heq]
        refine ⟨(p, pyOr f (pyAnd g eb)) :: rest, rfl, by simp, ?_, ?_, ?_⟩
        · simp only [List.map_cons, List.pairwise_cons]
          exact ⟨hlt, hrest⟩
        · intro q hq
          rcases List.mem_cons.mp hq with rfl | h2
          · right; exact List.mem_cons_self _ _
          · right; exact List.mem_cons_of_mem _ h2
        · simp only [List.map_cons]
      · rw [if_neg heq]
        refine ⟨(pos, f) :: (p, g) :: rest, rfl, by simp, ?_, ?_, ?_⟩
        · simp only [List.map_cons, List.pairwise_cons]
          refine ⟨?_, hlt, hrest⟩
          intro q hq
          rcases List.mem_cons.mp hq with rfl | h2
          · omega
          · have := hlt q h2
            omega
        · intro q hq
          rcases List.mem_cons.mp hq with rfl | h2
          · left; rfl
          · right; exact h2
        · simp only [List.map_cons]
          rw [List.getLast?_cons_cons]

theorem Scrollable.inv_movepos {s : Scrollable} (h : s.inv) (dist : Int) :
    (s.movepos dist).inv := by
  obtain ⟨h1, h2, h3, h4, h5, h6⟩ := h
  have h6' : (4 : Int) < s.width := h6
  unfold Scrollable.movepos
  by_cases he : s.str = []
  · rw [if_pos he]
    unfold Scrollable.inv
    dsimp only
    exact ⟨by omega, by omega, by omega, by omega, by omega, h6⟩
  · rw [if_neg he]
    have hlen : 0 < s.str.length := List.length_pos.mpr he
    unfold Scrollable.inv
    dsimp only
    split_ifs <;> exact ⟨by omega, by omega, by omega, by omega, by omega, h6⟩

theorem Scrollable.inv_append {s : Scrollable} (h : s.inv) (new : List Char) :
    (s.append new).inv := by
  apply Scrollable.inv_movepos
  obtain ⟨h1, h2, h3, h4, h5, h6⟩ := h
  unfold Scrollable.inv
  dsimp only
  simp only [List.length_append, List.length_take, List.length_drop]
  refine ⟨h1, h2, by omega, h4, by omega, h6⟩

theorem Scrollable.inv_runOps {s : Scrollable} (h : s.inv) (ops : List ScrollOp) :
    (s.runOps ops).inv := by
  induction ops generalizing s with
  | nil => exact h
  | cons op rest ih =>
    cases op with
    | append new => exact ih (Scrollable.inv_append h new)
    | movepos dist => exact ih (Scrollable.inv_movepos h dist)

/-- C4, counterexample: a `Scrollable` of width 5 constructed over
`"abcdefgh"` starts with its cursor 5 ≥ width columns (and characters)
past the display offset, and a `movepos(0)` call leaves it there: the
cursor is *not* kept inside `[display offset, display offset +
width)`. -/
theorem scrollable_window_counterexample :
    mkScrollable 5 (("abcdefgh").toList) = some badScroll
    ∧ ¬((badScroll.movepos 0).pos - (badScroll.movepos 0).disp
        < (badScroll.movepos 0).width)
    ∧ ¬(cursorColumnOffset (badScroll.movepos 0)
        < (badScroll.movepos 0).width) := by
  refine ⟨by decide, by decide, by decide⟩

/-- C4, amended: for a `Scrollable` of width `w` constructed empty,
after any sequence of `append`/`movepos` calls the cursor's *character*
position relative to the display offset lies in `[0, w)` (the
counterexample shows the property fails measured in columns, and fails
for non-empty construction strings). -/
theorem scrollable_cursor_in_window (w : Int) (ops : List ScrollOp)
    (s0 : Scrollable) (h0 : mkScrollable w [] = some s0) :
    0 ≤ (s0.runOps ops).pos - (s0.runOps ops).disp
      ∧ (s0.runOps ops).pos - (s0.runOps ops).disp < (s0.runOps ops).width := by
  have ht : TABLEN = 4 := rfl
  have hw : ¬(w ≤ TABLEN) := by
    intro hle
    rw [mkScrollable, if_pos hle] at h0
    exact Option.noConfusion h0
  rw [mkScrollable, if_neg hw, Option.some_inj] at h0
  have hinv : s0.inv := by
    rw [← h0]
    unfold Scrollable.inv
    dsimp only
    simp only [List.filter_nil, List.length_nil, Nat.cast_zero]
    have hc : collen ([] : List Char) = 0 := rfl
    rw [hc]
    refine ⟨by omega, by omega, by omega, by omega, fun _ => Or.inl trivial, by omega⟩
  have h := Scrollable.inv_runOps hinv ops
  obtain ⟨h1, h2, _, h4, _, _⟩ := h
  exact ⟨by omega, h4⟩

/-- Witness for `scrollable_cursor_in_window` at `w = 5`,
`ops = [append "hello", movepos (-2)]`. -/
theorem scrollable_cursor_in_window_witness :
    0 ≤ (Scrollable.runOps { str := [], width := 5, pos := 0, disp := 0 }
          [ScrollOp.append ("hello").toList, ScrollOp.movepos (-2)]).pos
        - (Scrollable.runOps { str := [], width := 5, pos := 0, disp := 0 }
          [ScrollOp.append ("hello").toList, ScrollOp.movepos (-2)]).disp
    ∧ (Scrollable.runOps { str := [], width := 5, pos := 0, disp := 0 }
          [ScrollOp.append ("hello").toList, ScrollOp.movepos (-2)]).pos
        - (Scrollable.runOps { str := [], width := 5, pos := 0, disp := 0 }
          [ScrollOp.append ("hello").toList, ScrollOp.movepos (-2)]).disp
      < (Scrollable.runOps { str := [], width := 5, pos := 0, disp := 0 }
          [ScrollOp.append ("hello").toList, ScrollOp.movepos (-2)]).width :=
  scrollable_cursor_in_window 5
    [ScrollOp.append ("hello").toList, ScrollOp.movepos (-2)]
    { str := [], width := 5, pos := 0, disp := 0 } (by decide)

/-- C10: constructing a `Scrollable` with width at most the tab length
4 raises `DisplayException` (no object produced); any width above the
tab length succeeds; `setwidth` with a new width at most 0 raises,
leaving the stored state untouched, and otherwise stores exactly the
new width. -/
theorem scrollable_width_guard :
    (∀ (w : Int) (s : List Char), w ≤ TABLEN → mkScrollable w s = none)
    ∧ (∀ (w : Int) (s : List Char), TABLEN < w → (mkScrollable w s).isSome)
    ∧ (∀ (sc : Scrollable) (new : Int), new ≤ 0 → sc.setwidth new = none)
    ∧ (∀ (sc : Scrollable) (new : Int), 0 < new →
        sc.setwidth new = some { sc with width := new }) := by
  refine ⟨?_, ?_, ?_, ?_⟩
  · intro w s hle
    simp only [mkScrollable, if_pos hle]
  · intro w s hgt
    simp only [mkScrollable, if_neg (by omega : ¬(w ≤ TABLEN)), Option.isSome_some]
  · intro sc new hle
    simp only [Scrollable.setwidth, if_pos hle]
  · intro sc new hgt
    simp only [Scrollable.setwidth, if_neg (by omega : ¬(new ≤ 0))]

/-- Witness for `scrollable_width_guard` at concrete inputs. -/
theorem scrollable_width_guard_witness :
    mkScrollable 4 (("x").toList) = none
    ∧ (mkScrollable 5 (("x").toList)).isSome
    ∧ Scrollable.setwidth { str := [], width := 5, pos := 0, disp := 0 } 0 = none
    ∧ Scrollable.setwidth { str := [], width := 5, pos := 0, disp := 0 } 3
      = some { str := [], width := 3, pos := 0, disp := 0 } :=
  ⟨scrollable_width_guard.1 4 (("x").toList) (by decide)
  , scrollable_width_guard.2.1 5 (("x").toList) (by decide)
  , scrollable_width_guard.2.2.1 _ 0 (by decide)
  , scrollable_width_guard.2.2.2 { str := [], width := 5, pos := 0, disp := 0 } 3
      (by decide)⟩

theorem erWalk2_inv (eff : Nat) (endv maxpos : Int) :
    ∀ (runs : List (Int × Int)),
      (runs.map Prod.fst).Pairwise (· < ·) →
      (∀ q ∈ runs.map Prod.fst, q ≤ maxpos) →
      (endv ≤ maxpos → ∃ q ∈ runs.map Prod.fst, endv ≤ q) →
      ∃ rs, erWalk2 eff endv maxpos runs = some rs
        ∧ rs ≠ []
        ∧ (rs.map Prod.fst).Pairwise (· < ·)
        ∧ (∀ q ∈ rs.map Prod.fst, q = endv ∨ q ∈ runs.map Prod.fst)
        ∧ (rs.map Prod.fst).getLast?
            = (if endv > maxpos then some endv else (runs.map Prod.fst).getLast?) := by
  intro runs
  induction runs with
  | nil =>
    intro _ _ hcov
    by_cases hgt : endv > maxpos
    · refine ⟨[(endv, (eff : Int))], ?_, by simp, by simp, ?_, ?_⟩
      · unfold erWalk2
        rw [if_pos hgt]
      · intro q hq
        simp only [List.map_cons, List.map_nil] at hq
        rcases List.mem_singleton.mp hq with rfl
        left; rfl
      · simp only [List.map_cons, List.map_nil, List.getLast?_singleton, if_pos hgt]
    · obtain ⟨q, hq, _⟩ := hcov (by omega)
      cases hq
  | cons pg rest ih =>
    intro hp hub hcov
    obtain ⟨p, g⟩ := pg
    simp only [List.map_cons, List.pairwise_cons] at hp
    obtain ⟨hlt, hrest⟩ := hp
    unfold erWalk2
    by_cases hgt : endv > p
    · rw [if_pos hgt]
      have hub2 : ∀ q ∈ rest.map Prod.fst, q ≤ maxpos := by
        intro q hq
        exact hub q (List.mem_cons_of_mem _ hq)
      have hcov2 : endv ≤ maxpos → ∃ q ∈ rest.map Prod.fst, endv ≤ q := by
        intro hle
        obtain ⟨q, hq, hq2⟩ := hcov hle
        rcases List.mem_cons.mp hq with rfl | h2
        · omega
        · exact ⟨q, h2, hq2⟩
      obtain ⟨rs', hw, hne, hpw, hsub, hlast⟩ := ih hrest hub2 hcov2
      refine ⟨(p, if pyAnd g eff ≠ 0 then pyXor g eff else g) :: rs',
        by rw [hw]; rfl, by simp, ?_, ?_, ?_⟩
      · simp only [List.map_cons, List.pairwise_cons]
        refine ⟨?_, hpw⟩
        intro q hq
        rcases hsub q hq with rfl | h2
        · omega
        · exact hlt q h2
      · intro q hq
        rcases List.mem_cons.mp hq with rfl | h2
        · right; exact List.mem_cons_self _ _
        · rcases hsub q h2 with rfl | h3
          · left; rfl
          · right; exact List.mem_cons_of_mem _ h3
      · have hne' : rs'.map Prod.fst ≠ [] := by simpa using hne
        simp only [List.map_cons]
        rw [getLast?_cons_ne hne', hlast]
        by_cases hem : endv > maxpos
        · rw [if_pos hem, if_pos hem]
        · rw [if_neg hem, if_neg hem]
          have hrne : rest.map Prod.fst ≠ [] := by
            obtain ⟨q, hq, _⟩ := hcov2 (by omega)
            intro hx
            rw [hx] at hq
            cases hq
          rw [getLast?_cons_ne hrne]
    · rw [if_neg hgt]
      by_cases hem : endv > maxpos
      · exact absurd (hub p (List.mem_cons_self _ _)) (by omega)
      · rw [if_neg hem]
        by_cases heq : p = endv
        · rw [if_pos heq]
          refine ⟨(p, pyOr g eff) :: rest, rfl, by simp, ?_, ?_, ?_⟩
          · simp only [List.map_cons, List.pairwise_cons]
            exact ⟨hlt, hrest⟩
          · intro q hq
            rcases List.mem_cons.mp hq with rfl | h2
            · right; exact List.mem_cons_self _ _
            · right; exact List.mem_cons_of_mem _ h2
          · simp only [List.map_cons, if_neg hem]
        · rw [if_neg heq]
          refine ⟨(endv, (eff : Int)) :: (p, g) :: rest, rfl, by simp, ?_, ?_, ?_⟩
          · simp only [List.map_cons, List.pairwise_cons]
            refine ⟨?_, hlt, hrest⟩
            intro q hq
            rcases List.mem_cons.mp hq with rfl | h2
            · omega
            · have := hlt q h2
              omega
          · intro q hq
            rcases List.mem_cons.mp hq with rfl | h2
            · left; rfl
            · right; exact h2
          · simp only [List.map_cons, if_neg hem]
            rw [List.getLast?_cons_cons]

theorem erWalk1_inv (eff : Nat) (start endv maxpos : Int) (hse : start < endv) :
    ∀ (runs : List (Int × Int)),
      (runs.map Prod.fst).Pairwise (· < ·) →
      (runs.map Prod.fst).getLast? = some maxpos →
      (∃ q ∈ runs.map Prod.fst, start ≤ q) →
      ∃ rs, erWalk1 eff start endv maxpos runs = some rs
        ∧ rs ≠ []
        ∧ (rs.map Prod.fst).Pairwise (· < ·)
        ∧ (∀ q ∈ rs.map Prod.fst, q = start ∨ q = endv ∨ q ∈ runs.map Prod.fst)
        ∧ (rs.map Prod.fst).getLast?
            = (if endv > maxpos then some endv else (runs.map Prod.fst).getLast?) := by
  intro runs
  induction runs with
  | nil => intro _ _ hex; obtain ⟨q, hq, _⟩ := hex; cases hq
  | cons pg rest ih =>
    intro hp hlastp hex
    obtain ⟨p, g⟩ := pg
    simp only [List.map_cons, List.pairwise_cons] at hp
    obtain ⟨hlt, hrest⟩ := hp
    have hub : ∀ q ∈ (p :: rest.map Prod.fst), q ≤ maxpos := by
      apply pairwise_le_getLast
      · exact List.pairwise_cons.mpr ⟨hlt, hrest⟩
      · simpa using hlastp
    unfold erWalk1
    by_cases hgt : start > p
    · rw [if_pos hgt]
      have hrne : rest.map Prod.fst ≠ [] := by
        obtain ⟨q, hq, hq2⟩ := hex
        rw [List.map_cons] at hq
        rcases List.mem_cons.mp hq with rfl | h2
        · omega
        · intro hx
          rw [hx] at h2
          cases h2
      have hlast2 : (rest.map Prod.fst).getLast? = some maxpos := by
        rw [← @getLast?_cons_ne _ p _ hrne]
        rw [List.map_cons] at hlastp
        exact hlastp
      have hex2 : ∃ q ∈ rest.map Prod.fst, start ≤ q := by
        obtain ⟨q, hq, hq2⟩ := hex
        rw [List.map_cons] at hq
        rcases List.mem_cons.mp hq with rfl | h2
        · omega
        · exact ⟨q, h2, hq2⟩
      obtain ⟨rs', hw, hne, hpw, hsub, hlast⟩ := ih hrest hlast2 hex2
      refine ⟨(p, g) :: rs', by rw [hw]; rfl, by simp, ?_, ?_, ?_⟩
      · simp only [List.map_cons, List.pairwise_cons]
        refine ⟨?_, hpw⟩
        intro q hq
        rcases hsub q hq with rfl | rfl | h2
        · omega
        · omega
        · exact hlt q h2
      · intro q hq
        rcases List.mem_cons.mp hq with rfl | h2
        · right; right; exact List.mem_cons_self _ _
        · rcases hsub q h2 with rfl | rfl | h3
          · left; rfl
          · right; left; rfl
          · right; right; exact List.mem_cons_of_mem _ h3
      · have hne' : rs'.map Prod.fst ≠ [] := by simpa using hne
        simp only [List.map_cons]
        rw [getLast?_cons_ne hne', hlast, getLast?_cons_ne hrne]
    · rw [if_neg hgt]
      by_cases heq : p = start
      · rw [if_pos heq]
        have hub2 : ∀ q ∈ rest.map Prod.fst, q ≤ maxpos := by
          intro q hq
          exact hub q (List.mem_cons_of_mem _ hq)
        have hcov2 : endv ≤ maxpos → ∃ q ∈ rest.map Prod.fst, endv ≤ q := by
          intro hle
          by_cases hrne : rest.map Prod.fst = []
          · rw [List.map_cons, hrne, List.getLast?_singleton, Option.some_inj] at hlastp
            omega
          · have hlast2 : (rest.map Prod.fst).getLast? = some maxpos := by
              rw [← @getLast?_cons_ne _ p _ hrne]
              rw [List.map_cons] at hlastp
              exact hlastp
            exact ⟨maxpos, getLast?_mem_of_eq_some hlast2, hle⟩
        obtain ⟨rs', hw, hne, hpw, hsub, hlast⟩ := erWalk2_inv eff endv maxpos rest
          hrest hub2 hcov2
        refine ⟨(p, pyOr g eff) :: rs', by rw [hw]; rfl, by simp, ?_, ?_, ?_⟩
        · simp only [List.map_cons, List.pairwise_cons]
          refine ⟨?_, hpw⟩
          intro q hq
          rcases hsub q hq with rfl | h2
          · omega
          · exact hlt q h2
        · intro q hq
          rcases List.mem_cons.mp hq with rfl | h2
          · right; right; exact List.mem_cons_self _ _
          · rcases hsub q h2 with rfl | h3
            · right; left; rfl
            · right; right; exact List.mem_cons_of_mem _ h3
        · have hne' : rs'.map Prod.fst ≠ [] := by simpa using hne
          simp only [List.map_cons]
          rw [getLast?_cons_ne hne', hlast]
          by_cases hem : endv > maxpos
          · rw [if_pos hem, if_pos hem]
          · rw [if_neg hem, if_neg hem]
            have hrne : rest.map Prod.fst ≠ [] := by
              obtain ⟨q, hq, _⟩ := hcov2 (by omega)
              intro hx
              rw [hx] at hq
              cases hq
            rw [getLast?_cons_ne hrne]
      · rw [if_neg heq]
        have hub2 : ∀ q ∈ ((p, g) :: rest).map Prod.fst, q ≤ maxpos := by
          simpa using hub
        have hcov2 : endv ≤ maxpos →
            ∃ q ∈ ((p, g) :: rest).map Prod.fst, endv ≤ q := by
          intro hle
          refine ⟨maxpos, ?_, hle⟩
          have : (((p, g) :: rest).map Prod.fst).getLast? = some maxpos := hlastp
          exact getLast?_mem_of_eq_some this
        obtain ⟨rs', hw, hne, hpw, hsub, hlast⟩ := erWalk2_inv eff endv maxpos
          ((p, g) :: rest) (by simp only [List.map_cons, List.pairwise_cons]; exact ⟨hlt, hrest⟩)
          hub2 hcov2
        refine ⟨(start, (eff : Int)) :: rs', by rw [hw]; rfl, by simp, ?_, ?_, ?_⟩
        · simp only [List.map_cons, List.pairwise_cons]
          refine ⟨?_, hpw⟩
          intro q hq
          rcases hsub q hq with rfl | h2
          · omega
          · rw [List.map_cons] at h2
            rcases List.mem_cons.mp h2 with rfl | h3
            · omega
            · have := hlt q h3
              omega
        · intro q hq
          rcases List.mem_cons.mp hq with rfl | h2
          · left; rfl
          · rcases hsub q h2 with rfl | h3
            · right; left; rfl
            · right; right; exact h3
        · have hne' : rs'.map Prod.fst ≠ [] := by simpa using hne
          simp only [List.map_cons]
          rw [getLast?_cons_ne hne', hlast]
          simp only [List.map_cons]

theorem zip_of_maps {l : List (Int × Int)} :
    (l.map Prod.fst).zip (l.map Prod.snd) = l := by
  have h := List.zip_unzip l
  rw [List.unzip_eq_map] at h
  exact h

theorem Coloring.insert_color_preserves {pal : Palette} {c c' : Coloring}
    (hinv : c.runInv) {pos f : Int}
    (h : c.insert_color pal pos f = some c') : c'.runInv := by
  obtain ⟨hpw, hlen, hmax⟩ := hinv
  unfold Coloring.insert_color Coloring.insertColorBackend at h
  dsimp only at h
  set pp : Int := if pos < 0 then max (pos + (c.str.length : Int)) 0 else pos with hpp
  have hpge : 0 ≤ pp := by
    rw [hpp]
    split_ifs <;> omega
  by_cases hgt : pp > c.maxpos
  · rw [if_pos hgt, Option.some_inj] at h
    rw [← h]
    refine ⟨?_, ?_, ?_⟩
    · rw [List.pairwise_append]
      refine ⟨hpw, by simp, ?_⟩
      intro a ha b hb
      rcases List.mem_singleton.mp hb with rfl
      have hne : c.positions ≠ [] := by
        intro hx
        rw [hx] at ha
        cases ha
      have hlastne : c.positions.getLast? = some c.maxpos := by
        rw [hmax, List.getLast?_eq_getLast_of_ne_nil hne]
        rfl
      have := pairwise_le_getLast c.positions hpw c.maxpos hlastne a ha
      omega
    · simp only [List.length_append, List.length_singleton]
      omega
    · simp only [List.getLast?_concat, Option.getD_some]
  · rw [if_neg hgt] at h
    have hne : c.positions ≠ [] := by
      intro hx
      rw [hx] at hmax
      simp only [List.getLast?_nil, Option.getD_none] at hmax
      omega
    have hlastne : c.positions.getLast? = some c.maxpos := by
      rw [hmax, List.getLast?_eq_getLast_of_ne_nil hne]
      rfl
    have hzfst : (c.positions.zip c.formatting).map Prod.fst = c.positions :=
      List.map_fst_zip _ _ (by omega)
    have hex : ∃ q ∈ (c.positions.zip c.formatting).map Prod.fst, pp ≤ q := by
      rw [hzfst]
      exact ⟨c.maxpos, getLast?_mem_of_eq_some hlastne, by omega⟩
    obtain ⟨rs, hw, hrne, hrpw, _, hrlast⟩ :=
      icWalk_inv pal.effectsBits ((f + (pal.predefined : Int) + 1) * 2 ^ pal.effects.length)
        (c.positions.zip c.formatting) pp (by rw [hzfst]; exact hpw) hex
    rw [hw, Option.map_some', Option.some_inj] at h
    rw [← h]
    refine ⟨hrpw, by simp, ?_⟩
    dsimp only
    rw [hrlast, hzfst, ← hmax]

theorem Coloring.effect_range_preserves {pal : Palette} {c c' : Coloring}
    (hinv : c.runInv) {s e f : Int}
    (h : c.effect_range pal s e f = some c') : c'.runInv := by
  obtain ⟨hpw, hlen, hmax⟩ := hinv
  unfold Coloring.effect_range at h
  dsimp only at h
  set start : Int := if s < 0 then (c.str.length : Int) + s else s with hstart
  set endv : Int := if e ≤ 0 then (c.str.length : Int) + e else e with hendv
  by_cases hse : start ≥ endv
  · rw [if_pos hse, Option.some_inj] at h
    rw [← h]
    exact ⟨hpw, hlen, hmax⟩
  · rw [if_neg hse] at h
    by_cases hf : f < 0
    · rw [if_pos hf] at h
      cases h
    · rw [if_neg hf] at h
      by_cases hgt : start > c.maxpos
      · rw [if_pos hgt, Option.some_inj] at h
        rw [← h]
        refine ⟨?_, ?_, ?_⟩
        · have hub : ∀ a ∈ c.positions, a ≤ c.maxpos := by
            intro a ha
            have hne : c.positions ≠ [] := by
              intro hx
              rw [hx] at ha
              cases ha
            have hlastne : c.positions.getLast? = some c.maxpos := by
              rw [hmax, List.getLast?_eq_getLast_of_ne_nil hne]
              rfl
            exact pairwise_le_getLast c.positions hpw c.maxpos hlastne a ha
          rw [List.pairwise_append]
          refine ⟨hpw, ?_, ?_⟩
          · simp only [List.pairwise_cons, List.mem_singleton, List.pairwise_cons,
              List.not_mem_nil, false_implies, implies_true, List.Pairwise.nil, and_true]
            intro b hb
            rcases hb with rfl
            omega
          · intro a ha b hb
            have := hub a ha
            rcases List.mem_cons.mp hb with rfl | hb2
            · omega
            · rcases List.mem_singleton.mp hb2 with rfl
              omega
        · simp only [List.length_append, List.length_cons, List.length_nil]
          omega
        · dsimp only
          rw [show c.positions ++ [start, endv] = (c.positions ++ [start]) ++ [endv] by
            simp]
          simp only [List.getLast?_concat, Option.getD_some]
      · rw [if_neg hgt] at h
        have hne : c.positions ≠ [] := by
          intro hx
          rw [hx] at h
          simp only [List.zip_nil_left] at h
          unfold erWalk1 at h
          cases h
        have hlastne : c.positions.getLast? = some c.maxpos := by
          rw [hmax, List.getLast?_eq_getLast_of_ne_nil hne]
          rfl
        have hzfst : (c.positions.zip c.formatting).map Prod.fst = c.positions :=
          List.map_fst_zip _ _ (by omega)
        obtain ⟨rs, hw, hrne, hrpw, _, hrlast⟩ :=
          erWalk1_inv (1 <<< f.toNat) start endv c.maxpos (by omega)
            (c.positions.zip c.formatting) (by rw [hzfst]; exact hpw)
            (by rw [hzfst]; exact hlastne)
            (by
              rw [hzfst]
              exact ⟨c.maxpos, getLast?_mem_of_eq_some hlastne, by omega⟩)
        rw [hw, Option.map_some', Option.some_inj] at h
        rw [← h]
        refine ⟨hrpw, by simp, ?_⟩
        dsimp only
        rw [hrlast, hzfst, hlastne]
        by_cases hem : endv > c.maxpos
        · rw [if_pos hem, if_pos hem]
          rfl
        · rw [if_neg hem, if_neg hem]
          rfl

theorem runColorOps_preserves {pal : Palette} :
    ∀ (ops : List ColorOp) (c0 c : Coloring), c0.runInv →
      c0.runColorOps pal ops = some c → c.runInv := by
  intro ops
  induction ops with
  | nil =>
    intro c0 c h0 h
    unfold Coloring.runColorOps at h
    rw [Option.some_inj] at h
    rw [← h]
    exact h0
  | cons op rest ih =>
    intro c0 c h0 h
    unfold Coloring.runColorOps at h
    cases hstep : c0.applyColorOp pal op with
    | none => rw [hstep] at h; cases h
    | some c1 =>
      rw [hstep] at h
      have h1 : c1.runInv := by
        cases op with
        | insert pos f =>
          exact @Coloring.insert_color_preserves pal _ _ h0 _ _ hstep
        | effect s e f =>
          exact @Coloring.effect_range_preserves pal _ _ h0 _ _ _ hstep
      exact ih c1 c h1 h

/-- The fresh `Coloring` used as the C7 witness, with one color run at
position 0. -/
def cW7 : Coloring :=
  { str := ("ab").toList, positions := [0], formatting := [24], maxpos := 0 }

/-- `cW7` after `insert_color(0, 0)` and `effect_range(0, 2, 0)`. -/
def cW7b : Coloring :=
  { str := ("ab").toList, positions := [0, 2], formatting := [25, 1], maxpos := 2 }

/-- C7: after any sequence of `insert_color`/`effect_range` calls on a
fresh `Coloring`, the run position list is strictly increasing (hence
duplicate-free, with `_maxpos` caching the largest position); and
`insert_color` at an already-used position rewrites that entry in
place — the color bits are overwritten while the effect bits recorded
there survive — creating no second entry. -/
theorem color_runs_invariant :
    (∀ (pal : Palette) (s : List Char) (ops : List ColorOp) (c : Coloring),
        (mkColoring s).runColorOps pal ops = some c → c.runInv)
    ∧ (∀ (pal : Palette) (c : Coloring), c.runInv → ∀ (pos f : Int),
        (if pos < 0 then max (pos + (c.str.length : Int)) 0 else pos) ∈ c.positions →
        ∃ c', c.insert_color pal pos f = some c'
          ∧ c'.positions = c.positions
          ∧ c'.positions.zip c'.formatting
            = (c.positions.zip c.formatting).map (fun qg =>
                if qg.1 = (if pos < 0 then max (pos + (c.str.length : Int)) 0 else pos)
                then (qg.1,
                  pyOr ((f + (pal.predefined : Int) + 1) * 2 ^ pal.effects.length)
                    (pyAnd qg.2 pal.effectsBits))
                else qg)) := by
  constructor
  · intro pal s ops c h
    refine runColorOps_preserves ops (mkColoring s) c ?_ h
    exact ⟨by simp [mkColoring], by simp [mkColoring], by simp [mkColoring]⟩
  · intro pal c hinv pos f hmem
    obtain ⟨hpw, hlen, hmax⟩ := hinv
    set pp : Int := if pos < 0 then max (pos + (c.str.length : Int)) 0 else pos with hpp
    have hne : c.positions ≠ [] := by
      intro hx
      rw [hx] at hmem
      cases hmem
    have hlastne : c.positions.getLast? = some c.maxpos := by
      rw [hmax, List.getLast?_eq_getLast_of_ne_nil hne]
      rfl
    have hple : pp ≤ c.maxpos := pairwise_le_getLast c.positions hpw c.maxpos hlastne pp hmem
    have hzfst : (c.positions.zip c.formatting).map Prod.fst = c.positions :=
      List.map_fst_zip _ _ (by omega)
    unfold Coloring.insert_color Coloring.insertColorBackend
    dsimp only
    rw [← hpp, if_neg (by omega : ¬(pp > c.maxpos))]
    rw [icWalk_mem pal.effectsBits
      ((f + (pal.predefined : Int) + 1) * 2 ^ pal.effects.length)
      (c.positions.zip c.formatting) pp (by rw [hzfst]; exact hpw)
      (by rw [hzfst]; exact hmem)]
    rw [Option.map_some']
    refine ⟨_, rfl, ?_, ?_⟩
    · dsimp only
      rw [List.map_map]
      have : ∀ qg ∈ c.positions.zip c.formatting,
          (Prod.fst ∘ (fun qg : Int × Int =>
            if qg.1 = pp
            then (qg.1,
              pyOr ((f + (pal.predefined : Int) + 1) * 2 ^ pal.effects.length)
                (pyAnd qg.2 pal.effectsBits))
            else qg)) qg = Prod.fst qg := by
        intro qg _
        dsimp only [Function.comp]
        split_ifs <;> rfl
      rw [List.map_congr_left this, hzfst]
    · dsimp only
      exact zip_of_maps

/-- Witness for `color_runs_invariant`: one `insert_color(0, 0)` then
`effect_range(0, 2, 0)` on the string `"ab"` (part 1), and re-inserting
a color at the used position 0 of `cW7` (part 2). -/
theorem color_runs_invariant_witness :
    Coloring.runInv cW7b
    ∧ ∃ c', cW7.insert_color initPalette 0 1 = some c'
        ∧ c'.positions = cW7.positions
        ∧ c'.positions.zip c'.formatting
          = (cW7.positions.zip cW7.formatting).map (fun qg =>
              if qg.1 = (if (0:Int) < 0 then max (0 + (cW7.str.length : Int)) 0 else 0)
              then (qg.1,
                pyOr ((1 + (initPalette.predefined : Int) + 1)
                    * 2 ^ initPalette.effects.length)
                  (pyAnd qg.2 initPalette.effectsBits))
              else qg) :=
  ⟨color_runs_invariant.1 initPalette (("ab").toList)
      [ColorOp.insert 0 0, ColorOp.effect 0 2 0] _ (by decide)
  , color_runs_invariant.2 initPalette cW7 ⟨by decide, by decide, by decide⟩ 0 1
      (by decide)⟩

theorem justify_hit (pal : Palette) (j1 : JustifiedColoring) (length : Int)
    (justchar : List Char) (ensure0 : Int) (r : List Char)
    (hm : j1.memoargs = some (memoKey j1 length justchar ensure0))
    (hr : j1.rendered = some r) :
    j1.justify pal length justchar ensure0 = some (r, j1) := by
  unfold JustifiedColoring.justify
  rw [if_pos hm, hr]

/-- C5: calling `justify` twice in succession with the contained
string, runs, indicator and all three arguments unchanged returns the
stored rendered string again on the second call, leaving the object
untouched: the second call takes the memo path
(`_memoargs` holds the key of the first call), recomputing only when
(content, width, fill character, reserved indicator columns)
changed. -/
theorem justify_memoized (pal : Palette) (j : JustifiedColoring) (length : Int)
    (justchar : List Char) (ensure0 : Int) (r1 : List Char)
    (j1 : JustifiedColoring)
    (h : j.justify pal length justchar ensure0 = some (r1, j1)) :
    j1.justify pal length justchar ensure0 = some (r1, j1)
    ∧ j1.memoargs = some (memoKey j1 length justchar ensure0) := by
  unfold JustifiedColoring.justify at h
  by_cases hm : j.memoargs = some (memoKey j length justchar ensure0)
  · rw [if_pos hm] at h
    cases hr : j.rendered with
    | none => rw [hr] at h; cases h
    | some r =>
      rw [hr] at h
      rw [Option.some_inj] at h
      have hr1 : r = r1 := congrArg Prod.fst h
      have hj1 : j = j1 := congrArg Prod.snd h
      subst hj1
      subst hr1
      exact ⟨justify_hit pal j length justchar ensure0 r hm hr, hm⟩
  · rw [if_neg hm] at h
    dsimp only at h
    cases hb : justifyBackend pal j.str j.positions j.formatting
        (length - (match j.indicator with
          | none => ([], [], 0, 0)
          | some (sb, col) => (sb, col, collen sb, min ensure0 (collen sb)) :
            List Char × List Char × Int × Int).2.2.2) with
    | none =>
      rw [hb] at h
      cases h
    | some du =>
      rw [hb] at h
      obtain ⟨display, used⟩ := du
      dsimp only at h
      rw [Option.some_inj, Prod.ext_iff] at h
      obtain ⟨h1, h2⟩ := h
      dsimp only at h1 h2
      subst h1
      subst h2
      exact ⟨justify_hit pal _ length justchar ensure0 _ rfl rfl, rfl⟩

/-- The `JustifiedColoring` over `"hello world"` used as the C5
witness. -/
def jW : JustifiedColoring :=
  { str := ("hello world").toList, positions := [], formatting := [],
    maxpos := -1, indicator := none, memoargs := none, rendered := none }

/-- `jW` after one `justify(20, ' ', 2)` call. -/
def jW1 : JustifiedColoring :=
  { jW with
    memoargs := some (memoKey jW 20 [' '] 2)
    rendered := some (("hello world         ").toList ++ CLEAR_FORMATTING) }

/-- Witness for `justify_memoized` at `jW.justify(20, ' ', 2)`. -/
theorem justify_memoized_witness :
    JustifiedColoring.justify initPalette jW1 20 [' '] 2
      = some (("hello world         ").toList ++ CLEAR_FORMATTING, jW1)
    ∧ jW1.memoargs = some (memoKey jW1 20 [' '] 2) :=
  justify_memoized initPalette jW 20 [' '] 2
    (("hello world         ").toList ++ CLEAR_FORMATTING) jW1 (by decide)

theorem blAfterWidth_inv {pal : Palette} (hWF : pal.WF)
    {length : Int} {outdent : List Char} (odlen : Int)
    (hout : ∀ c ∈ outdent, 0 ≤ wcwidth c) (hodlen : odlen = collen outdent)
    (hlen : 2 * odlen + 4 ≤ length)
    {j : Char} (hj : 0 ≤ wcwidth j)
    {st : BLState} (h : BLInv length st) :
    BLInv length (blAfterWidth pal length outdent odlen j (wcwidth j) true st) := by
  obtain ⟨h1, h2, h3, h4, h5, h6⟩ := h
  have hj2 : wcwidth j ≤ 2 := wcwidth_le_two j
  have hodnn : 0 ≤ odlen := hodlen ▸ collen_nonneg outdent
  have houtE : escFinal false outdent = false := (printable_strip outdent hout).2
  have hpendE : escFinal false st.pending = false := (printable_strip st.pending h2).2
  have hpendnn : 0 ≤ collen st.pending := collen_nonneg st.pending
  have hbufnn : 0 ≤ collen st.buffer := collen_nonneg st.buffer
  have hchunkE := escChunk_continueFormatting hWF st.lastColor 0 st.lastEffect
  have hclear := escChunk_clear
  unfold blAfterWidth
  dsimp only
  by_cases hmoved : (isLineBreaking j = true) ∧ st.space - wcwidth j > 0
  · rw [if_pos hmoved, if_neg (by omega : ¬(st.space - wcwidth j ≤ 0))]
    dsimp only
    have hbe : escFinal false (st.buffer ++ st.pending ++ [j]) = false := by
      apply escFinal_ground_append
      · exact escFinal_ground_append h1 hpendE
      · exact (printable_strip [j] (by
          intro c hc; rcases List.mem_singleton.mp hc with rfl; exact hj)).2
    have hbc : collen (st.buffer ++ st.pending ++ [j])
        = collen st.buffer + collen st.pending + wcwidth j := by
      rw [collen_ground_append _ (escFinal_ground_append h1 hpendE),
        collen_ground_append _ h1, collen_singleton hj]
    split_ifs with hco
    · exact absurd hmoved hco.1
    · have hz : collen (([] : List Char) ++ []) = 0 := rfl
      refine ⟨by simpa using hbe, ?_, ?_, ?_, by dsimp only; omega, h6⟩
      · dsimp only
        intro c hc
        cases hc
      · dsimp only
        rw [hz, hbc]
        omega
      · dsimp only
        intro _
        rw [hz]
        omega
  · rw [if_neg hmoved]
    by_cases hbrk : st.space - wcwidth j ≤ 0
    · rw [if_pos hbrk]
      by_cases hlc : 0 < st.lastcol ∧ st.lastcol < pyShr1 length
      · rw [if_pos hlc]
        have hlc2 : 2 * st.lastcol + 2 ≤ length := pyShr1_two_mul hlc.2
        have hemit : collen (st.buffer ++ CLEAR_FORMATTING) = collen st.buffer := by
          rw [collen_ground_append _ h1, escChunk_collen hclear]
          omega
        have hbuf2 : escFinal false
            (outdent ++ pal.continueFormatting st.lastColor 0 st.lastEffect) = false :=
          escFinal_ground_append houtE hchunkE.2
        have hbuf2c : collen
            (outdent ++ pal.continueFormatting st.lastColor 0 st.lastEffect) = odlen := by
          rw [collen_ground_append _ houtE, escChunk_collen hchunkE, hodlen]
          omega
        have hpendj : collen (st.pending ++ [j]) = collen st.pending + wcwidth j := by
          rw [collen_ground_append _ hpendE, collen_singleton hj]
        have h4' : collen st.pending ≤ st.lastcol := by
          have := h4 hlc.1
          omega
        have hTj : (if (true = true) then ([j] : List Char) else []) = [j] := rfl
        refine ⟨by simpa using hbuf2, ?_, ?_, ?_, ?_, ?_⟩
        · dsimp only
          rw [hTj]
          intro c hc
          rcases List.mem_append.mp hc with hc1 | hc2
          · exact h2 c hc1
          · rcases List.mem_singleton.mp hc2 with rfl
            exact hj
        · dsimp only
          rw [hTj, hbuf2c, hpendj]
          omega
        · dsimp only
          intro hx
          omega
        · dsimp only
          omega
        · dsimp only
          intro l hl
          rcases List.mem_append.mp hl with hl1 | hl2
          · exact h6 l hl1
          · rcases List.mem_singleton.mp hl2 with rfl
            rw [hemit]
            omega
      · rw [if_neg hlc]
        have hemit : collen (st.buffer ++ st.pending ++ CLEAR_FORMATTING)
            = collen st.buffer + collen st.pending := by
          rw [collen_ground_append _ (escFinal_ground_append h1 hpendE),
            collen_ground_append _ h1, escChunk_collen hclear]
          omega
        have hbuf2 : escFinal false
            (outdent ++ pal.continueFormatting st.lastColor 0 st.lastEffect) = false :=
          escFinal_ground_append houtE hchunkE.2
        have hbuf2c : collen
            (outdent ++ pal.continueFormatting st.lastColor 0 st.lastEffect) = odlen := by
          rw [collen_ground_append _ houtE, escChunk_collen hchunkE, hodlen]
          omega
        refine ⟨by simpa using hbuf2, ?_, ?_, ?_, ?_, ?_⟩
        · dsimp only
          intro c hc
          rcases List.mem_singleton.mp hc with rfl
          exact hj
        · dsimp only
          rw [hbuf2c, collen_singleton hj]
          omega
        · dsimp only
          intro hx
          omega
        · dsimp only
          omega
        · dsimp only
          intro l hl
          rcases List.mem_append.mp hl with hl1 | hl2
          · exact h6 l hl1
          · rcases List.mem_singleton.mp hl2 with rfl
            rw [show st.buffer ++ st.pending ++ CLEAR_FORMATTING
              = st.buffer ++ st.pending ++ CLEAR_FORMATTING from rfl, hemit]
            omega
    · rw [if_neg hbrk]
      have hcond : (¬((isLineBreaking j = true) ∧ st.space - wcwidth j > 0)
          ∧ true = true) := ⟨hmoved, rfl⟩
      rw [if_pos hcond]
      have hpendj : collen (st.pending ++ [j]) = collen st.pending + wcwidth j := by
        rw [collen_ground_append _ hpendE, collen_singleton hj]
      refine ⟨h1, ?_, ?_, ?_, by dsimp only; omega, h6⟩
      · dsimp only
        intro c hc
        rcases List.mem_append.mp hc with hc1 | hc2
        · exact h2 c hc1
        · rcases List.mem_singleton.mp hc2 with rfl
          exact hj
      · dsimp only
        rw [hpendj]
        omega
      · dsimp only
        intro hx
        have := h4 hx
        rw [hpendj]
        omega

/-- Flushing `pending` into a grounded buffer that is no wider than
buffer-plus-pending preserves the width invariant, whatever happens to
the formatting registers. -/
theorem BLInv_flush {length : Int} {st : BLState} {b2 : List Char}
    (hb2 : escFinal false b2 = false)
    (hb2c : collen b2 ≤ collen st.buffer + collen st.pending)
    (fp : Nat) (lc : Int) (le : Nat) (h : BLInv length st) :
    BLInv length { st with
      buffer := b2
      pending := []
      fpos := fp
      lastColor := lc
      lastEffect := le } := by
  obtain ⟨h1, h2, h3, h4, h5, h6⟩ := h
  have hpendnn : 0 ≤ collen st.pending := collen_nonneg st.pending
  have hz : collen ([] : List Char) = 0 := rfl
  refine ⟨hb2, ?_, ?_, ?_, h5, h6⟩
  · intro c hc
    exact absurd hc (List.not_mem_nil c)
  · dsimp only
    rw [hz]
    omega
  · dsimp only
    intro hx
    have := h4 hx
    rw [hz]
    omega

/-- The formatting event of the loop body preserves the width
invariant. -/
theorem blFmt_inv {pal : Palette} (hWF : pal.WF) {length : Int}
    (positions formatting : List Int) (pos : Nat)
    {st : BLState} (h : BLInv length st) :
    BLInv length (blFmt pal positions formatting pos st) := by
  have hpendE : escFinal false st.pending = false := (printable_strip st.pending h.2.1).2
  have hbp : escFinal false (st.buffer ++ st.pending) = false :=
    escFinal_ground_append h.1 hpendE
  have hbpc : collen (st.buffer ++ st.pending) = collen st.buffer + collen st.pending :=
    collen_ground_append _ h.1
  unfold blFmt
  dsimp only
  split_ifs with hc h0 hsp hsp2 <;>
    first
      | exact h
      | exact BLInv_flush hbp (le_of_eq hbpc) _ _ _ h
      | exact BLInv_flush
          (escFinal_ground_append hbp (escChunk_continueFormatting hWF _ _ _).2)
          (by rw [collen_ground_append _ hbp,
              escChunk_collen (escChunk_continueFormatting hWF _ _ _), hbpc]; omega)
          _ _ _ h

/-- For a printable character the dispatch skips the tab, newline and
control branches and reduces to `blAfterWidth`; the width invariant is
preserved. -/
theorem blDispatch_inv {pal : Palette} (hWF : pal.WF)
    {length : Int} {outdent : List Char} (odlen : Int) (keepEmpty : Bool)
    (hout : ∀ c ∈ outdent, 0 ≤ wcwidth c) (hodlen : odlen = collen outdent)
    (hlen : 2 * odlen + 4 ≤ length)
    {j : Char} (hj : 0 ≤ wcwidth j)
    {st : BLState} (h : BLInv length st) :
    BLInv length (blDispatch pal length outdent odlen keepEmpty j st) := by
  have hT : (j == '\t') = false := printable_ne_low hj (by decide)
  have hR : (j == '\r') = false := printable_ne_low hj (by decide)
  have hN : (j == '\n') = false := printable_ne_low hj (by decide)
  have h32 : ¬ j.toNat < 32 := by
    have := (printable_ge hj).1
    omega
  unfold blDispatch
  rw [if_neg (by simp [hT]), if_neg (by simp [hR, hN]), if_neg h32]
  exact blAfterWidth_inv hWF odlen hout hodlen hlen hj h

/-- One full loop iteration preserves the width invariant for
printable characters. -/
theorem blStep_inv {pal : Palette} (hWF : pal.WF)
    {length : Int} {outdent : List Char} (odlen : Int) (keepEmpty : Bool)
    (positions formatting : List Int) (pos : Nat)
    (hout : ∀ c ∈ outdent, 0 ≤ wcwidth c) (hodlen : odlen = collen outdent)
    (hlen : 2 * odlen + 4 ≤ length)
    {j : Char} (hj : 0 ≤ wcwidth j)
    {st : BLState} (h : BLInv length st) :
    BLInv length
      (blStep pal length outdent odlen keepEmpty positions formatting pos j st) :=
  blDispatch_inv hWF odlen keepEmpty hout hodlen hlen hj
    (blFmt_inv hWF positions formatting pos h)

/-- The whole character loop preserves the width invariant. -/
theorem blRun_inv {pal : Palette} (hWF : pal.WF)
    {length : Int} {outdent : List Char} (odlen : Int) (keepEmpty : Bool)
    (positions formatting : List Int)
    (hout : ∀ c ∈ outdent, 0 ≤ wcwidth c) (hodlen : odlen = collen outdent)
    (hlen : 2 * odlen + 4 ≤ length) :
    ∀ (cs : List Char) (pos : Nat) (st : BLState),
      (∀ c ∈ cs, 0 ≤ wcwidth c) → BLInv length st →
      BLInv length
        (blRun pal length outdent odlen keepEmpty positions formatting cs pos st) := by
  intro cs
  induction cs with
  | nil => intro pos st _ h; exact h
  | cons j rest ih =>
    intro pos st hcs h
    show BLInv length (blRun pal length outdent odlen keepEmpty positions formatting
      rest (pos+1)
      (blStep pal length outdent odlen keepEmpty positions formatting pos j st))
    exact ih (pos+1) _ (fun c hc => hcs c (List.mem_cons_of_mem _ hc))
      (blStep_inv hWF odlen keepEmpty positions formatting pos hout hodlen hlen
        (hcs j (List.mem_cons_self _ _)) h)

/-- C2 (amended): every line produced by `breaklines` fits within the
requested width — provided the palette is well-formed, the text and
the outdent consist of printable characters (no tabs, carriage
returns, line feeds, other control characters, DEL or raw escape
bytes), and the width is at least twice the outdent width plus 4.
(Without those provisos the claim fails: see the counterexample.) -/
theorem breaklines_width {pal : Palette} (hWF : pal.WF)
    (c : Coloring) (length : Int) (outdent : List Char) (keepEmpty : Bool)
    (hstr : ∀ ch ∈ c.str, 0 ≤ wcwidth ch)
    (hout : ∀ ch ∈ outdent, 0 ≤ wcwidth ch)
    (hlen : 2 * collen outdent + 4 ≤ length) :
    ∀ l ∈ Coloring.breaklines pal c length outdent keepEmpty,
      collen l ≤ length := by
  have hodnn : 0 ≤ collen outdent := collen_nonneg outdent
  have hz : collen ([] : List Char) = 0 := rfl
  have hinit : BLInv length (blInit length) := by
    refine ⟨rfl, ?_, ?_, ?_, ?_, ?_⟩
    · intro x hx
      exact absurd hx (List.not_mem_nil x)
    · show collen [] + collen [] + length ≤ length
      rw [hz]
      omega
    · intro hx
      have hxx : (0:Int) < 0 := hx
      omega
    · show (0:Int) ≤ length
      omega
    · intro l hl
      exact absurd hl (List.not_mem_nil l)
  have hrun := blRun_inv hWF (collen outdent) keepEmpty c.positions c.formatting
    hout rfl hlen c.str 0 (blInit length) hstr hinit
  intro l hl
  unfold Coloring.breaklines at hl
  dsimp only at hl
  set st := blRun pal length outdent (collen outdent) keepEmpty c.positions
    c.formatting c.str 0 (blInit length) with hstdef
  obtain ⟨h1, h2, h3, h4, h5, h6⟩ := hrun
  have hpendE : escFinal false st.pending = false := (printable_strip st.pending h2).2
  have hemit : collen (st.buffer ++ st.pending ++ CLEAR_FORMATTING)
      = collen st.buffer + collen st.pending := by
    rw [collen_ground_append _ (escFinal_ground_append h1 hpendE),
      collen_ground_append _ h1, escChunk_collen escChunk_clear]
    omega
  split_ifs at hl with hflush
  · rcases List.mem_append.mp hl with hl1 | hl2
    · exact h6 l hl1
    · rcases List.mem_singleton.mp hl2 with rfl
      rw [hemit]
      omega
  · exact h6 l hl

/-- Witness for C2 (amended) at a concrete input: the first line of
`breaklines(10, "", True)` on "abcdefghij klmno" fits in 10 columns. -/
theorem breaklines_width_witness :
    collen ((Coloring.breaklines initPalette
      (mkColoring (String.toList "abcdefghij klmno")) 10 [] true).getD 0 []) ≤ 10 :=
  breaklines_width initPalette_WF
    (mkColoring (String.toList "abcdefghij klmno")) 10 [] true
    (by decide) (by decide) (by decide) _ (by decide)

theorem escChunk_strip {s : List Char} (h : EscChunk s) : stripEscapes s = [] := h.1

theorem printable_stripEscapes {l : List Char} (h : ∀ c ∈ l, 0 ≤ wcwidth c) :
    stripEscapes l = l := (printable_strip l h).1

/-- Flushing `pending` into a grounded buffer whose visible content is
the old visible content preserves the tiling invariant. -/
theorem BLTile_flush {done : List Char} {st : BLState} {b2 : List Char}
    (hb2 : escFinal false b2 = false)
    (hb2s : stripEscapes b2 = stripEscapes st.buffer ++ st.pending)
    (fp : Nat) (lc : Int) (le : Nat) (h : BLTile done st) :
    BLTile done { st with
      buffer := b2
      pending := []
      fpos := fp
      lastColor := lc
      lastEffect := le } := by
  obtain ⟨h1, h2, h3⟩ := h
  refine ⟨hb2, ?_, ?_⟩
  · intro c hc
    exact absurd hc (List.not_mem_nil c)
  · dsimp only
    rw [hb2s, List.append_nil, ← List.append_assoc]
    exact h3

/-- The formatting event preserves the tiling invariant. -/
theorem blFmt_tile {pal : Palette} (hWF : pal.WF)
    (positions formatting : List Int) (pos : Nat)
    {done : List Char} {st : BLState} (h : BLTile done st) :
    BLTile done (blFmt pal positions formatting pos st) := by
  have hpendE : escFinal false st.pending = false := (printable_strip st.pending h.2.1).2
  have hbp : escFinal false (st.buffer ++ st.pending) = false :=
    escFinal_ground_append h.1 hpendE
  have hbps : stripEscapes (st.buffer ++ st.pending)
      = stripEscapes st.buffer ++ st.pending := by
    rw [strip_ground_append _ h.1, printable_stripEscapes h.2.1]
  unfold blFmt
  dsimp only
  split_ifs with hc h0 hsp hsp2 <;>
    first
      | exact h
      | exact BLTile_flush hbp hbps _ _ _ h
      | exact BLTile_flush
          (escFinal_ground_append hbp (escChunk_continueFormatting hWF _ _ _).2)
          (by rw [strip_ground_append _ hbp,
              escChunk_strip (escChunk_continueFormatting hWF _ _ _),
              List.append_nil, hbps]) _ _ _ h

/-- With an empty outdent, processing a printable character through
`blAfterWidth` extends the tiled prefix by exactly that character. -/
theorem blAfterWidth_tile {pal : Palette} (hWF : pal.WF)
    (length odlen : Int) {j : Char} (hj : 0 ≤ wcwidth j)
    {done : List Char} {st : BLState} (h : BLTile done st) :
    BLTile (done ++ [j])
      (blAfterWidth pal length [] odlen j (wcwidth j) true st) := by
  obtain ⟨h1, h2, h3⟩ := h
  subst h3
  have hjP : ∀ c ∈ [j], 0 ≤ wcwidth c := fun c hc => by
    rcases List.mem_singleton.mp hc with rfl; exact hj
  have hjE : escFinal false [j] = false := (printable_strip [j] hjP).2
  have hjS : stripEscapes [j] = [j] := printable_stripEscapes hjP
  have hpendE : escFinal false st.pending = false := (printable_strip st.pending h2).2
  have hpendS : stripEscapes st.pending = st.pending := printable_stripEscapes h2
  have hchunkE := escChunk_continueFormatting hWF st.lastColor 0 st.lastEffect
  have hbpE : escFinal false (st.buffer ++ st.pending) = false :=
    escFinal_ground_append h1 hpendE
  have hpendP : ∀ c ∈ st.pending ++ [j], 0 ≤ wcwidth c := by
    intro c hc
    rcases List.mem_append.mp hc with hc1 | hc2
    · exact h2 c hc1
    · exact hjP c hc2
  unfold blAfterWidth
  dsimp only
  by_cases hmoved : (isLineBreaking j = true) ∧ st.space - wcwidth j > 0
  · rw [if_pos hmoved, if_neg (by omega : ¬(st.space - wcwidth j ≤ 0))]
    dsimp only
    split_ifs with hco
    · exact absurd hmoved hco.1
    · refine ⟨escFinal_ground_append hbpE hjE, ?_, ?_⟩
      · intro c hc
        rw [List.append_nil] at hc
        exact absurd hc (List.not_mem_nil c)
      · dsimp only
        simp only [strip_ground_append _ hbpE, strip_ground_append _ h1,
          strip_ground_append _ hpendE, hpendS, hjS,
          List.append_nil, List.nil_append, List.append_assoc]
  · rw [if_neg hmoved]
    by_cases hbrk : st.space - wcwidth j ≤ 0
    · rw [if_pos hbrk]
      by_cases hlc : 0 < st.lastcol ∧ st.lastcol < pyShr1 length
      · rw [if_pos hlc]
        have hTj : (if (true = true) then ([j] : List Char) else []) = [j] := rfl
        refine ⟨?_, ?_, ?_⟩
        · dsimp only
          rw [List.nil_append]
          exact hchunkE.2
        · dsimp only
          rw [hTj]
          exact hpendP
        · dsimp only
          rw [hTj]
          simp only [List.map_append, List.flatten_append, List.map_cons, List.map_nil,
            List.flatten_cons, List.flatten_nil, strip_ground_append _ h1,
            strip_ground_append _ hpendE, hpendS,
            escChunk_strip escChunk_clear, escChunk_strip hchunkE,
            List.append_nil, List.nil_append, List.append_assoc]
      · rw [if_neg hlc]
        refine ⟨?_, ?_, ?_⟩
        · dsimp only
          rw [List.nil_append]
          exact hchunkE.2
        · dsimp only
          exact hjP
        · dsimp only
          simp only [List.map_append, List.flatten_append, List.map_cons, List.map_nil,
            List.flatten_cons, List.flatten_nil, strip_ground_append _ hbpE,
            strip_ground_append _ h1, strip_ground_append _ hpendE, hpendS, hjS,
            escChunk_strip escChunk_clear,
            escChunk_strip hchunkE, List.append_nil, List.nil_append, List.append_assoc]
    · rw [if_neg hbrk]
      have hcond : (¬((isLineBreaking j = true) ∧ st.space - wcwidth j > 0)
          ∧ true = true) := ⟨hmoved, rfl⟩
      rw [if_pos hcond]
      refine ⟨h1, hpendP, ?_⟩
      · dsimp only
        simp only [List.append_assoc]

/-- For a printable character the dispatch preserves tiling, extending
the prefix by that character. -/
theorem blDispatch_tile {pal : Palette} (hWF : pal.WF)
    (length odlen : Int) (keepEmpty : Bool)
    {j : Char} (hj : 0 ≤ wcwidth j)
    {done : List Char} {st : BLState} (h : BLTile done st) :
    BLTile (done ++ [j]) (blDispatch pal length [] odlen keepEmpty j st) := by
  have hT : (j == '\t') = false := printable_ne_low hj (by decide)
  have hR : (j == '\r') = false := printable_ne_low hj (by decide)
  have hN : (j == '\n') = false := printable_ne_low hj (by decide)
  have h32 : ¬ j.toNat < 32 := by
    have := (printable_ge hj).1
    omega
  unfold blDispatch
  rw [if_neg (by simp [hT]), if_neg (by simp [hR, hN]), if_neg h32]
  exact blAfterWidth_tile hWF length odlen hj h

/-- One full loop iteration preserves tiling for printable
characters. -/
theorem blStep_tile {pal : Palette} (hWF : pal.WF)
    (length odlen : Int) (keepEmpty : Bool)
    (positions formatting : List Int) (pos : Nat)
    {j : Char} (hj : 0 ≤ wcwidth j)
    {done : List Char} {st : BLState} (h : BLTile done st) :
    BLTile (done ++ [j])
      (blStep pal length [] odlen keepEmpty positions formatting pos j st) :=
  blDispatch_tile hWF length odlen keepEmpty hj
    (blFmt_tile hWF positions formatting pos h)

/-- The whole character loop tiles the processed text onto the
produced lines. -/
theorem blRun_tile {pal : Palette} (hWF : pal.WF)
    (length odlen : Int) (keepEmpty : Bool)
    (positions formatting : List Int) :
    ∀ (cs : List Char) (pos : Nat) (done : List Char) (st : BLState),
      (∀ c ∈ cs, 0 ≤ wcwidth c) → BLTile done st →
      BLTile (done ++ cs)
        (blRun pal length [] odlen keepEmpty positions formatting cs pos st) := by
  intro cs
  induction cs with
  | nil =>
    intro pos done st _ h
    rw [List.append_nil]
    exact h
  | cons j rest ih =>
    intro pos done st hcs h
    show BLTile (done ++ j :: rest)
      (blRun pal length [] odlen keepEmpty positions formatting rest (pos+1)
        (blStep pal length [] odlen keepEmpty positions formatting pos j st))
    have hstep := blStep_tile hWF length odlen keepEmpty positions formatting pos
      (hcs j (List.mem_cons_self _ _)) h
    have hrest := ih (pos+1) (done ++ [j]) _
      (fun c hc => hcs c (List.mem_cons_of_mem _ hc)) hstep
    rw [List.append_assoc] at hrest
    exact hrest

/-- Stripping the escape sequences from the lines `breaklines`
produces (empty outdent, `keep_empty = True`, printable text) and
concatenating gives back exactly the original text. -/
theorem breaklines_tiles {pal : Palette} (hWF : pal.WF)
    (c : Coloring) (length : Int)
    (hstr : ∀ ch ∈ c.str, 0 ≤ wcwidth ch) :
    ((Coloring.breaklines pal c length [] true).map stripEscapes).flatten
      = c.str := by
  have hinit : BLTile [] (blInit length) :=
    ⟨rfl, fun x hx => absurd hx (List.not_mem_nil x), rfl⟩
  have hrun := blRun_tile hWF length (collen []) true c.positions c.formatting
    c.str 0 [] (blInit length) hstr hinit
  rw [List.nil_append] at hrun
  unfold Coloring.breaklines
  dsimp only
  rw [if_pos (Or.inl rfl)]
  set st := blRun pal length [] (collen []) true c.positions c.formatting
    c.str 0 (blInit length) with hstdef
  obtain ⟨h1, h2, h3⟩ := hrun
  have hpendE : escFinal false st.pending = false := (printable_strip st.pending h2).2
  have hbpE : escFinal false (st.buffer ++ st.pending) = false :=
    escFinal_ground_append h1 hpendE
  simp only [List.map_append, List.flatten_append, List.map_cons, List.map_nil,
    List.flatten_cons, List.flatten_nil, strip_ground_append _ hbpE,
    strip_ground_append _ h1, strip_ground_append _ hpendE,
    printable_stripEscapes h2,
    escChunk_strip escChunk_clear, List.append_nil, List.nil_append,
    List.append_assoc]
  simp only [List.append_assoc] at h3
  exact h3

/-- C6 (amended): for printable text (no tabs, carriage returns, line
feeds, other control characters, DEL or raw escape bytes), with
`outdent = ""` and `keep_empty = True`, stripping the escape sequences
from the lines of `breaklines` and concatenating reproduces the
original visible text exactly, and wrapping that concatenation again
yields the same visible text.  (As literally stated — "for any text" —
the claim fails: see the counterexample, where a line feed comes back
as a padding space.) -/
theorem breaklines_roundtrip {pal : Palette} (hWF : pal.WF)
    (c : Coloring) (length : Int)
    (hstr : ∀ ch ∈ c.str, 0 ≤ wcwidth ch) :
    ((Coloring.breaklines pal c length [] true).map stripEscapes).flatten = c.str
    ∧ ((Coloring.breaklines pal
          (mkColoring (((Coloring.breaklines pal c length [] true).map
            stripEscapes).flatten)) length [] true).map stripEscapes).flatten
        = ((Coloring.breaklines pal c length [] true).map stripEscapes).flatten := by
  have ht := breaklines_tiles hWF c length hstr
  refine ⟨ht, ?_⟩
  have hstr2 : ∀ ch ∈ (mkColoring (((Coloring.breaklines pal c length [] true).map
      stripEscapes).flatten)).str, 0 ≤ wcwidth ch := by
    intro ch hch
    have hch2 : ch ∈ ((Coloring.breaklines pal c length [] true).map
        stripEscapes).flatten := hch
    rw [ht] at hch2
    exact hstr ch hch2
  exact breaklines_tiles hWF
    (mkColoring (((Coloring.breaklines pal c length [] true).map
      stripEscapes).flatten)) length hstr2

/-- Witness for C6 (amended) at a concrete input. -/
theorem breaklines_roundtrip_witness :
    ((Coloring.breaklines initPalette (mkColoring (String.toList "abcdefghij klmno"))
        10 [] true).map stripEscapes).flatten = String.toList "abcdefghij klmno"
    ∧ ((Coloring.breaklines initPalette
          (mkColoring (((Coloring.breaklines initPalette
            (mkColoring (String.toList "abcdefghij klmno")) 10 [] true).map
            stripEscapes).flatten)) 10 [] true).map stripEscapes).flatten
        = ((Coloring.breaklines initPalette
            (mkColoring (String.toList "abcdefghij klmno")) 10 [] true).map
            stripEscapes).flatten :=
  breaklines_roundtrip initPalette_WF (mkColoring (String.toList "abcdefghij klmno"))
    10 (by decide)

/-- C6 as literally stated fails: `breaklines` replaces a line feed by
a padding space on the emitted line, so the stripped concatenation of
the lines of "a\n" wrapped at width 10 is "a " and not "a\n". -/
theorem breaklines_roundtrip_counterexample :
    ((Coloring.breaklines initPalette (mkColoring (String.toList "a\n")) 10 [] true).map
      stripEscapes).flatten ≠ String.toList "a\n" := by
  decide

/-- C1: the up/down inverse property fails on the code.  `stA` is
reachable (one `append` of a height-5 message, then `up(1)`, viewport
height 3); from it, `up(1)` consumes one more line inside the selected
message and `down(1)` undoes it, both returning exactly `k = 1` (so no
boundary in the claim's sense), yet the viewport tuple comes back as
`(1,0,0,3,0)` instead of `(1,0,0,3,2)`: `up` unconditionally resets
`hidden_top` (chat.py:278) and this `down` path never restores it. -/
theorem up_down_not_inverse :
    Messages.runOps Messages.init 4 [MsgOp.append 5, MsgOp.up 1] = some stA
    ∧ stA.up 4 1 = some (stB, 1)
    ∧ stB.down 4 1 = some (stC, 1)
    ∧ stA.viewport = (1, 0, 0, 3, 2)
    ∧ stC.viewport = (1, 0, 0, 3, 0)
    ∧ ¬(stC.viewport = stA.viewport) := by
  refine ⟨by decide, by decide, by decide, by decide, by decide, by decide⟩

/-- C8: appending a message of height `h` while a selection is active
(`selector > 0`) and the log is scrolled to the bottom
(`start_message = 0`) increments `selector` and either grows
`height_up` by `h` (when the new message still fits under the selected
one) or increments `start_message` — so the selected message keeps its
place on screen. -/
theorem append_shifts_selection (m : Messages) (pheight : Int) (h : Nat)
    (hsel : 0 < m.selector) (hbot : m.start_message = 0) :
    (m.append pheight h).selector = m.selector + 1
    ∧ (((m.append pheight h).height_up = m.height_up + (h:Int)
        ∧ (m.append pheight h).start_message = 0)
      ∨ ((m.append pheight h).start_message = 1
        ∧ (m.append pheight h).height_up = m.height_up)) := by
  unfold Messages.append
  dsimp only
  rw [if_pos (show ¬(m.selector = 0) by omega)]
  split_ifs with hc
  · exact ⟨rfl, Or.inl ⟨rfl, hbot⟩⟩
  · exact ⟨rfl, Or.inr ⟨by show m.start_message + 1 = 1; omega, rfl⟩⟩

/-- Witness for `append_shifts_selection`: a state with one height-1
message selected, at the bottom, viewport height 3. -/
theorem append_shifts_selection_witness :
    (Messages.append stW8 4 2).selector = stW8.selector + 1
    ∧ (((Messages.append stW8 4 2).height_up = stW8.height_up + ((2:Nat):Int)
        ∧ (Messages.append stW8 4 2).start_message = 0)
      ∨ ((Messages.append stW8 4 2).start_message = 1
        ∧ (Messages.append stW8 4 2).height_up = stW8.height_up)) :=
  append_shifts_selection stW8 4 2 (by decide) (by decide)

/-- C9: with `"help"` and `"helpers"` registered, running the command
line `"he"` yields the ambiguous-command status notification and no
invocation; in general an empty prefix-match set yields the not-found
notification, two or more matches yield the ambiguous notification
(listing at most ten candidates), and a command is invoked exactly
when the match is unique.  All outcomes are values of `CommandAction`:
resolution never raises. -/
theorem command_ambiguity :
    commandRun [("help").toList, ("helpers").toList] (("he").toList)
      = CommandAction.ambiguous [("help").toList, ("helpers").toList]
    ∧ (∀ (commands : List (List Char)) (s : List Char),
        commands.filter (fun c => (argsplit s).headI.isPrefixOf c) = [] →
          commandRun commands s = CommandAction.notFound (argsplit s).headI)
    ∧ (∀ (commands : List (List Char)) (s : List Char),
        2 ≤ (commands.filter (fun c => (argsplit s).headI.isPrefixOf c)).length →
          commandRun commands s
            = CommandAction.ambiguous
                ((commands.filter (fun c => (argsplit s).headI.isPrefixOf c)).take 10))
    ∧ (∀ (commands : List (List Char)) (s : List Char) (n : List Char)
        (args : List (List Char)),
        commandRun commands s = CommandAction.invoke n args →
          commands.filter (fun c => (argsplit s).headI.isPrefixOf c) = [n]) := by
  refine ⟨by decide, ?_, ?_, ?_⟩
  · intro commands s h
    unfold commandRun
    dsimp only
    rw [h]
    rfl
  · intro commands s h
    unfold commandRun
    dsimp only
    rw [if_neg (by
      intro hempty
      rw [List.isEmpty_iff] at hempty
      rw [hempty] at h
      simp at h)]
    rw [if_pos (by omega)]
  · intro commands s n args h
    unfold commandRun at h
    dsimp only at h
    by_cases h1 : (commands.filter (fun c => (argsplit s).headI.isPrefixOf c)).isEmpty
    · rw [if_pos h1] at h
      cases h
    · rw [if_neg h1] at h
      by_cases h2 : (commands.filter (fun c => (argsplit s).headI.isPrefixOf c)).length > 1
      · rw [if_pos h2] at h
        cases h
      · rw [if_neg h2] at h
        have hne : commands.filter (fun c => (argsplit s).headI.isPrefixOf c) ≠ [] := by
          intro hx
          rw [hx] at h1
          exact h1 List.isEmpty_nil
        have hlen : (commands.filter (fun c => (argsplit s).headI.isPrefixOf c)).length = 1 := by
          have := List.length_pos.mpr hne
          omega
        obtain ⟨x, hx⟩ := List.length_eq_one.mp hlen
        rw [hx] at h ⊢
        cases h
        rfl

/-- Witness for `command_ambiguity`: the not-found case at `"zz"`, the
ambiguous case at `"he"`, and the unique-invocation case with only
`"help"` registered. -/
theorem command_ambiguity_witness :
    commandRun [("help").toList] (("zz").toList)
      = CommandAction.notFound ((argsplit (("zz").toList)).headI)
    ∧ commandRun [("help").toList, ("helpers").toList] (("he").toList)
      = CommandAction.ambiguous
          (([("help").toList, ("helpers").toList].filter
            (fun c => (argsplit (("he").toList)).headI.isPrefixOf c)).take 10)
    ∧ [("help").toList].filter
        (fun c => (argsplit (("he").toList)).headI.isPrefixOf c)
      = [("help").toList] :=
  ⟨command_ambiguity.2.1 [("help").toList] (("zz").toList) (by decide)
  , command_ambiguity.2.2.1 [("help").toList, ("helpers").toList] (("he").toList)
      (by decide)
  , command_ambiguity.2.2.2 [("help").toList] (("he").toList) (("help").toList) []
      (by decide)⟩

/-- C3, counterexample: on the spec's concrete scenario the visible
contents of the two produced lines are not `"abcdefghij "` and
`"klmno"`: the wrap point falls before the `j` (when the width runs out
at `j` no break opportunity has been seen yet, so the code hard-breaks
mid-token). -/
theorem breaklines_scenario_not_as_claimed :
    ¬ (((mkColoring ("abcdefghij klmno").toList).breaklines initPalette 10 [] true).map
        stripEscapes
      = [("abcdefghij ").toList, ("klmno").toList]) := by
  decide

/-- C3, amended: `breaklines(10, "", True)` on `"abcdefghij klmno"`
returns exactly two lines, whose visible contents are `"abcdefghi"` and
`"j klmno"`, and every produced line spans at most 10 display
columns. -/
theorem breaklines_scenario_amended :
    (((mkColoring ("abcdefghij klmno").toList).breaklines initPalette 10 [] true).map
        stripEscapes
      = [("abcdefghi").toList, ("j klmno").toList])
    ∧ ∀ l ∈ (mkColoring ("abcdefghij klmno").toList).breaklines initPalette 10 [] true,
        collen l ≤ 10 := by
  decide

/-- C2, counterexample: the line produced for the string `"a\n"` at
requested width 1 spans 2 display columns (the CR/LF branch appends a
space "to preserve string position", overflowing the width). -/
theorem breaklines_width_overflow :
    ∃ l ∈ (mkColoring ("a\n").toList).breaklines initPalette 1 [] true,
      1 < collen l := by
  decide

end TermCancer
